import Mathlib

/-!
Verification of the descriptor-table and paging subsystem of a small
x86_64 teaching kernel.  Machine integers (u64/u16/u8) are modelled as
`Nat`, with explicit masking/`% 2^w` at every point where the source
performs a cast or where overflow could matter.  Page tables are
modelled as total functions from slot index to raw 64-bit entry, and
physical memory as a total function from table base address to table.
A physical-frame allocator (the `FrameAllocator` trait) is modelled by
the stream of frames it would hand out.
-/

set_option maxRecDepth 4096

namespace Paging

/-- `ENTRIES_PER_TABLE` from src/paging.rs. -/
def ENTRIES_PER_TABLE : Nat := 512

/-- `FRAME_SIZE` from src/paging.rs. -/
def FRAME_SIZE : Nat := 4096

namespace flags

/-- Flag bit `PRESENT = 1 << 0` from src/paging.rs. -/
def PRESENT : Nat := 1

/-- Flag bit `WRITABLE = 1 << 1`. -/
def WRITABLE : Nat := 2

/-- Flag bit `USER = 1 << 2`. -/
def USER : Nat := 4

/-- Flag bit `HUGE_PAGE = 1 << 7`. -/
def HUGE_PAGE : Nat := 128

/-- Flag bit `NO_EXECUTE = 1 << 63`. -/
def NO_EXECUTE : Nat := 2 ^ 63

end flags

/-- `ADDRESS_MASK = 0x000F_FFFF_FFFF_F000` from src/paging.rs: bits 12..51. -/
def ADDRESS_MASK : Nat := 0x000FFFFFFFFFF000

/-- The u64 complement `!ADDRESS_MASK` (bits 0..11 and 52..63). -/
def NOT_ADDRESS_MASK : Nat := 0xFFF0000000000FFF

/-- The raw 64-bit value stored by `PageTableEntry::set`:
`(frame & ADDRESS_MASK) | (flags & !ADDRESS_MASK)`. -/
def entrySetRaw (frame fl : Nat) : Nat :=
  (frame &&& ADDRESS_MASK) ||| (fl &&& NOT_ADDRESS_MASK)

/-- `PageTableEntry::set` from src/paging.rs.  The source guards the
write with `debug_assert_eq!(frame & 0xFFF, 0)`; the assertion failure
(a debug-build panic) is modelled as `none`. -/
def PageTableEntry.set (frame fl : Nat) : Option Nat :=
  if frame &&& 0xFFF = 0 then some (entrySetRaw frame fl) else none

/-- `PageTableEntry::is_unused`: `(self.0 & PRESENT) == 0`. -/
def PageTableEntry.is_unused (e : Nat) : Bool := e &&& flags.PRESENT == 0

/-- `PageTableEntry::addr`: `self.0 & ADDRESS_MASK`. -/
def PageTableEntry.addr (e : Nat) : Nat := e &&& ADDRESS_MASK

/-- The non-address bits of an entry (the flag component recovered when
decoding an entry: everything outside the 40-bit frame field). -/
def PageTableEntry.flagBits (e : Nat) : Nat := e &&& NOT_ADDRESS_MASK

/-- The union of the five documented flag bits
{present, writable, user, huge-page, no-execute}. -/
def LEGAL_FLAGS : Nat :=
  flags.PRESENT ||| flags.WRITABLE ||| flags.USER |||
    flags.HUGE_PAGE ||| flags.NO_EXECUTE

theorem addressMask_testBit (i : Nat) :
    ADDRESS_MASK.testBit i = (decide (12 ≤ i) && decide (i < 52)) := by
  have h : ADDRESS_MASK = (2 ^ 40 - 1) <<< 12 := by decide
  rw [h, Nat.testBit_shiftLeft, Nat.testBit_two_pow_sub_one]
  have a2 : decide (i - 12 < 40) = decide (i < 52) ∨ decide (12 ≤ i) = false := by
    rcases Nat.lt_or_ge i 12 with h12 | h12
    · right
      simp
      omega
    · left
      rw [decide_eq_decide]
      omega
  rcases a2 with a2 | a2
  · rw [a2]
  · rw [a2]
    simp

theorem notAddressMask_testBit (i : Nat) :
    NOT_ADDRESS_MASK.testBit i =
      (decide (i < 12) || (decide (52 ≤ i) && decide (i < 64))) := by
  have h : NOT_ADDRESS_MASK = (2 ^ 12 - 1) ||| ((2 ^ 12 - 1) <<< 52) := by decide
  rw [h, Nat.testBit_or, Nat.testBit_shiftLeft, Nat.testBit_two_pow_sub_one,
    Nat.testBit_two_pow_sub_one]
  have a2 : decide (i - 52 < 12) = decide (i < 64) ∨ decide (52 ≤ i) = false := by
    rcases Nat.lt_or_ge i 52 with h52 | h52
    · right
      simp
      omega
    · left
      rw [decide_eq_decide]
      omega
  rcases a2 with a2 | a2
  · rw [a2]
  · rw [a2]
    simp

theorem aligned_testBit_low {p i : Nat} (hp : p % 4096 = 0) (hi : i < 12) :
    p.testBit i = false := by
  rw [Nat.testBit_to_div_mod]
  obtain ⟨q, hq⟩ := Nat.dvd_of_mod_eq_zero hp
  subst hq
  have h1 : (4096 : Nat) = 2 ^ i * 2 ^ (12 - i) := by
    rw [← pow_add]
    have hi2 : i + (12 - i) = 12 := by omega
    rw [hi2]
    norm_num
  rw [h1, Nat.mul_assoc, Nat.mul_div_cancel_left _ (by positivity)]
  have h2 : (2 : Nat) ^ (12 - i) = 2 * 2 ^ (11 - i) := by
    have hi2 : 12 - i = (11 - i) + 1 := by omega
    rw [hi2, pow_succ']
  rw [h2, Nat.mul_assoc, Nat.mul_mod_right]
  decide

theorem land_addressMask_of_aligned {p : Nat} (ha : p % 4096 = 0)
    (hlt : p < 2 ^ 52) : p &&& ADDRESS_MASK = p := by
  apply Nat.eq_of_testBit_eq
  intro i
  rw [Nat.testBit_and, addressMask_testBit]
  rcases Nat.lt_or_ge i 12 with h1 | h1
  · rw [aligned_testBit_low ha h1]
    simp
  · rcases Nat.lt_or_ge i 52 with h2 | h2
    · simp [h1, h2]
    · rw [Nat.testBit_lt_two_pow
        (Nat.lt_of_lt_of_le hlt (Nat.pow_le_pow_right (by norm_num) h2))]
      simp

theorem addr_entrySetRaw (p fl : Nat) :
    PageTableEntry.addr (entrySetRaw p fl) = p &&& ADDRESS_MASK := by
  unfold PageTableEntry.addr entrySetRaw
  apply Nat.eq_of_testBit_eq
  intro i
  simp only [Nat.testBit_and, Nat.testBit_or, addressMask_testBit,
    notAddressMask_testBit]
  rcases Nat.lt_or_ge i 12 with h1 | h1
  · simp [show ¬ 12 ≤ i by omega]
  · rcases Nat.lt_or_ge i 52 with h2 | h2
    · simp [h1, h2, show ¬ i < 12 by omega, show ¬ 52 ≤ i by omega]
    · simp [show ¬ i < 52 by omega]

theorem flagBits_entrySetRaw (p fl : Nat) :
    PageTableEntry.flagBits (entrySetRaw p fl) = fl &&& NOT_ADDRESS_MASK := by
  unfold PageTableEntry.flagBits entrySetRaw
  apply Nat.eq_of_testBit_eq
  intro i
  simp only [Nat.testBit_and, Nat.testBit_or, addressMask_testBit,
    notAddressMask_testBit]
  rcases Nat.lt_or_ge i 12 with h1 | h1
  · simp [h1, show ¬ 12 ≤ i by omega]
  · rcases Nat.lt_or_ge i 52 with h2 | h2
    · simp [show ¬ i < 12 by omega, show ¬ 52 ≤ i by omega]
    · rcases Nat.lt_or_ge i 64 with h3 | h3
      · simp [h2, h3, show ¬ i < 12 by omega, show ¬ i < 52 by omega]
      · simp [show ¬ i < 12 by omega, show ¬ i < 64 by omega,
          show ¬ i < 52 by omega]

theorem legalFlags_testBit (i : Nat) :
    LEGAL_FLAGS.testBit i =
      (decide (i = 0) || decide (i = 1) || decide (i = 2) ||
        decide (i = 7) || decide (i = 63)) := by
  have h : LEGAL_FLAGS = 2 ^ 0 ||| (2 ^ 1 ||| (2 ^ 2 ||| (2 ^ 7 ||| 2 ^ 63))) := by
    decide
  rw [h]
  simp only [Nat.testBit_or, Nat.testBit_two_pow]
  rcases Nat.decEq 0 i with h0 | h0 <;> rcases Nat.decEq 1 i with hA | hA <;>
    rcases Nat.decEq 2 i with hB | hB <;> rcases Nat.decEq 7 i with hC | hC <;>
    rcases Nat.decEq 63 i with hD | hD <;>
    simp_all [eq_comm]

theorem legal_land_notAddressMask {fl : Nat} (h : fl &&& LEGAL_FLAGS = fl) :
    fl &&& NOT_ADDRESS_MASK = fl := by
  apply Nat.eq_of_testBit_eq
  intro i
  have hb : fl.testBit i = (fl.testBit i && LEGAL_FLAGS.testBit i) := by
    conv_lhs => rw [← h]
    rw [Nat.testBit_and]
  rw [Nat.testBit_and, notAddressMask_testBit]
  rcases Nat.lt_or_ge i 12 with h1 | h1
  · simp [h1]
  · rcases Nat.lt_or_ge i 52 with h2 | h2
    · rw [hb, legalFlags_testBit]
      simp [show ¬ i < 12 by omega, show ¬ 52 ≤ i by omega,
        show ¬ i = 0 by omega, show ¬ i = 1 by omega, show ¬ i = 2 by omega,
        show ¬ i = 7 by omega, show ¬ i = 63 by omega]
    · rcases Nat.lt_or_ge i 64 with h3 | h3
      · simp [h2, h3, show ¬ i < 12 by omega]
      · rw [hb, legalFlags_testBit]
        simp [show ¬ i < 12 by omega, show ¬ i < 64 by omega,
          show ¬ i = 0 by omega, show ¬ i = 1 by omega, show ¬ i = 2 by omega,
          show ¬ i = 7 by omega, show ¬ i = 63 by omega]

theorem land_fff_eq_mod (x : Nat) : x &&& 0xFFF = x % 4096 := by
  have h1 : (0xFFF : Nat) = 2 ^ 12 - 1 := by norm_num
  have h2 : (4096 : Nat) = 2 ^ 12 := by norm_num
  rw [h1, h2, Nat.and_pow_two_sub_one_eq_mod]

theorem addr_mod_4096 (e : Nat) : PageTableEntry.addr e % 4096 = 0 := by
  unfold PageTableEntry.addr
  have h : (4096 : Nat) = 2 ^ 12 := by norm_num
  rw [h, ← Nat.and_pow_two_sub_one_eq_mod, Nat.and_assoc]
  have h2 : ADDRESS_MASK &&& (2 ^ 12 - 1) = 0 := by decide
  rw [h2, Nat.and_zero]

theorem is_unused_eq (e : Nat) :
    PageTableEntry.is_unused e = (e % 2 == 0) := by
  unfold PageTableEntry.is_unused flags.PRESENT
  rw [Nat.and_one_is_mod]

theorem entrySetRaw_mod_two (p fl : Nat) : entrySetRaw p fl % 2 = fl % 2 := by
  have h := flagBits_entrySetRaw p fl
  unfold PageTableEntry.flagBits at h
  have hnm : NOT_ADDRESS_MASK &&& 1 = 1 := by decide
  have h1 : entrySetRaw p fl &&& NOT_ADDRESS_MASK &&& 1 = entrySetRaw p fl &&& 1 := by
    rw [Nat.and_assoc, hnm]
  have h2 : fl &&& NOT_ADDRESS_MASK &&& 1 = fl &&& 1 := by
    rw [Nat.and_assoc, hnm]
  have h3 := congrArg (· &&& 1) h
  simp only at h3
  rw [h1, h2] at h3
  rw [Nat.and_one_is_mod, Nat.and_one_is_mod] at h3
  exact h3

/-- C3: for every 4096-aligned frame address within the 40-bit frame field
(bits 12..51, i.e. `frame < 2^52`) and every combination of the flag bits
{present, writable, user, huge-page, no-execute}, `PageTableEntry::set`
followed by reading the entry back recovers the same frame address (via
`addr`) and the same flag bits, and the address component of any entry the
setter produces is a multiple of 4096. -/
theorem pte_set_roundtrip (frame fl : Nat)
    (hal : frame % 4096 = 0) (hlt : frame < 2 ^ 52)
    (hfl : fl &&& LEGAL_FLAGS = fl) :
    PageTableEntry.set frame fl = some (entrySetRaw frame fl) ∧
    PageTableEntry.addr (entrySetRaw frame fl) = frame ∧
    PageTableEntry.flagBits (entrySetRaw frame fl) = fl ∧
    (∀ f g e, PageTableEntry.set f g = some e →
      PageTableEntry.addr e % 4096 = 0) := by
  refine ⟨?_, ?_, ?_, ?_⟩
  · unfold PageTableEntry.set
    rw [land_fff_eq_mod, hal]
    simp
  · rw [addr_entrySetRaw, land_addressMask_of_aligned hal hlt]
  · rw [flagBits_entrySetRaw, legal_land_notAddressMask hfl]
  · intro f g e hset
    exact addr_mod_4096 e

theorem pte_set_roundtrip_witness :
    (4096 % 4096 = 0) ∧ (4096 < 2 ^ 52) ∧ (3 &&& LEGAL_FLAGS = 3) ∧
    PageTableEntry.addr (entrySetRaw 4096 3) = 4096 ∧
    PageTableEntry.flagBits (entrySetRaw 4096 3) = 3 :=
  ⟨by norm_num, by norm_num, by decide,
    (pte_set_roundtrip 4096 3 (by norm_num) (by norm_num) (by decide)).2.1,
    (pte_set_roundtrip 4096 3 (by norm_num) (by norm_num) (by decide)).2.2.1⟩

/-- `align_up` from src/paging.rs:
`(addr + FRAME_SIZE - 1) & !(FRAME_SIZE - 1)` on u64.  Clearing the low
12 bits is expressed arithmetically as `/ 4096 * 4096`; the `% 2 ^ 64`
models the u64 wrap-around of the addition (release-build semantics). -/
def align_up (addr : Nat) : Nat :=
  (addr + FRAME_SIZE - 1) % 2 ^ 64 / 4096 * 4096

/-- `start & !0xFFF` from `Mapper::identity_map_range` (u64), again with
the low-12-bit clear expressed arithmetically. -/
def pageFloor (addr : Nat) : Nat := addr % 2 ^ 64 / 4096 * 4096

/-- `BumpFrameAllocator` from src/paging.rs.  The source's `end` field is
named `endAddr` because `end` is reserved in Lean. -/
structure BumpFrameAllocator where
  next : Nat
  endAddr : Nat
deriving Repr, DecidableEq

/-- `BumpFrameAllocator::new`. -/
def BumpFrameAllocator.new (start endAddr : Nat) : BumpFrameAllocator :=
  ⟨align_up start, endAddr⟩

/-- `BumpFrameAllocator::allocate_frame`; the `&mut self` mutation is
modelled by returning the updated allocator next to the result. -/
def BumpFrameAllocator.allocate_frame (a : BumpFrameAllocator) :
    Option Nat × BumpFrameAllocator :=
  if a.next ≥ a.endAddr then (none, a)
  else (some a.next, ⟨align_up (a.next + FRAME_SIZE), a.endAddr⟩)

/-- Result list of `n` successive `allocate_frame` calls. -/
def runAllocator : BumpFrameAllocator → Nat → List (Option Nat)
  | _, 0 => []
  | a, n + 1 =>
    let r := a.allocate_frame
    r.1 :: runAllocator r.2 n

/-- The number of (possibly partial) 4 KiB frames the allocator can hand
out from the region `[start, endAddr)`: the claim's `M`. -/
def usableFrames (start endAddr : Nat) : Nat :=
  (endAddr - align_up start + 4095) / 4096

theorem align_up_no_wrap {a : Nat} (h : a + 4095 < 2 ^ 64) :
    align_up a = (a + 4095) / 4096 * 4096 := by
  unfold align_up FRAME_SIZE
  rw [show a + 4096 - 1 = a + 4095 by omega, Nat.mod_eq_of_lt h]

theorem align_up_of_aligned {a : Nat} (ha : a % 4096 = 0)
    (h : a + 4095 < 2 ^ 64) : align_up a = a := by
  rw [align_up_no_wrap h]
  omega

theorem runAllocator_characterization (e n : Nat) (he : e ≤ 2 ^ 64 - 4096) :
    ∀ a : Nat, a % 4096 = 0 → a ≤ 2 ^ 64 - 4096 →
    runAllocator ⟨a, e⟩ n =
      (List.range n).map (fun k =>
        if k < (e - a + 4095) / 4096 then some (a + 4096 * k) else none) := by
  induction n with
  | zero => intro a _ _; simp [runAllocator]
  | succ n ih =>
    intro a ha haU
    have hsucc : (List.range (n + 1)).map (fun k =>
        if k < (e - a + 4095) / 4096 then some (a + 4096 * k) else none) =
        (if 0 < (e - a + 4095) / 4096 then some (a + 4096 * 0) else none) ::
        (List.range n).map (fun k =>
          if k + 1 < (e - a + 4095) / 4096 then some (a + 4096 * (k + 1))
          else none) := by
      rw [List.range_succ_eq_map, List.map_cons, List.map_map]
      rfl
    rw [hsucc]
    show (BumpFrameAllocator.allocate_frame ⟨a, e⟩).1 ::
        runAllocator (BumpFrameAllocator.allocate_frame ⟨a, e⟩).2 n = _
    unfold BumpFrameAllocator.allocate_frame
    by_cases hae : a ≥ e
    · rw [if_pos hae]
      have hM : (e - a + 4095) / 4096 = 0 := by omega
      rw [hM, ih a ha haU, hM]
      simp
    · rw [if_neg hae]
      have hstep : align_up (a + FRAME_SIZE) = a + 4096 := by
        unfold FRAME_SIZE
        exact align_up_of_aligned (by omega) (by omega)
      simp only [hstep]
      rw [ih (a + 4096) (by omega) (by omega)]
      have hM1 : 1 ≤ (e - a + 4095) / 4096 := by omega
      refine congrArg₂ List.cons ?_ ?_
      · rw [if_pos (by omega)]
        norm_num
      · apply List.map_congr_left
        intro k _
        have hshift : (e - (a + 4096) + 4095) / 4096 =
            (e - a + 4095) / 4096 - 1 := by
          omega
        rw [hshift]
        by_cases hk : k < (e - a + 4095) / 4096 - 1
        · rw [if_pos hk, if_pos (by omega)]
          congr 1
          ring
        · rw [if_neg hk, if_neg (by omega)]

/-- C4: an allocator built over the region `[s, e)` (with the region below
the u64 wrap-around boundary) answers exactly `usableFrames s e` requests
with `some`, in strictly increasing address order starting at
`align_up s` and stepping by 4096, and `none` for every request after
that, for any number `n` of calls. -/
theorem bump_allocator_spec (s e n : Nat) (hs : s + 4095 < 2 ^ 64)
    (he : e ≤ 2 ^ 64 - 4096) :
    runAllocator (BumpFrameAllocator.new s e) n =
      (List.range n).map (fun k =>
        if k < usableFrames s e then some (align_up s + 4096 * k) else none) ∧
    (∀ i j : Nat, i < j → j < usableFrames s e →
      align_up s + 4096 * i < align_up s + 4096 * j) := by
  constructor
  · unfold BumpFrameAllocator.new usableFrames
    apply runAllocator_characterization e n he
    · rw [align_up_no_wrap hs]
      omega
    · rw [align_up_no_wrap hs]
      omega
  · intro i j hij _
    omega

theorem bump_allocator_spec_witness :
    (5000 + 4095 < 2 ^ 64) ∧ (12288 ≤ 2 ^ 64 - 4096) ∧
    runAllocator (BumpFrameAllocator.new 5000 12288) 3 =
      (List.range 3).map (fun k =>
        if k < usableFrames 5000 12288 then some (align_up 5000 + 4096 * k)
        else none) :=
  ⟨by norm_num, by norm_num,
    (bump_allocator_spec 5000 12288 3 (by norm_num) (by norm_num)).1⟩

/- A `PageTable` is 512 64-bit entries, modelled as a total function from
slot index to raw entry value; physical memory is a total function from
table base address to table.  Writing the same bytes back is then
literally the identity on the state, so equality of states is
byte-for-byte equality of every table. -/

/-- A page table: slot index (0..511 used) to raw 64-bit entry. -/
def Tbl : Type := Nat → Nat

/-- Physical table memory: table base address to table contents. -/
def Mem : Type := Nat → Tbl

/-- The all-zero table produced by `PageTable::zero`. -/
def zeroTbl : Tbl := fun _ => 0

/-- Store entry value `v` in slot `i` of a table. -/
def tblSet (t : Tbl) (i v : Nat) : Tbl := fun j => if j = i then v else t j

/-- Store table `t` at base address `p`. -/
def memSet (m : Mem) (p : Nat) (t : Tbl) : Mem :=
  fun q => if q = p then t else m q

/-- The machine state a `Mapper` call operates on: the table memory plus
the frame allocator it was handed.  An allocator (any implementor of the
`FrameAllocator` trait) is modelled by the stream of frames it would
return: `allocate_frame` pops the head, and an exhausted stream returns
`None`. -/
structure MachSt where
  mem : Mem
  frames : List Nat

/-- `FrameAllocator::allocate_frame` on the stream model. -/
def allocStep : List Nat → Option (Nat × List Nat)
  | [] => none
  | f :: r => some (f, r)

/-- `pml4_index`: `(addr >> 39) & 0x1FF`. -/
def pml4_index (addr : Nat) : Nat := addr / 2 ^ 39 % 512

/-- `pdpt_index`: `(addr >> 30) & 0x1FF`. -/
def pdpt_index (addr : Nat) : Nat := addr / 2 ^ 30 % 512

/-- `pd_index`: `(addr >> 21) & 0x1FF`. -/
def pd_index (addr : Nat) : Nat := addr / 2 ^ 21 % 512

/-- `pt_index`: `(addr >> 12) & 0x1FF`. -/
def pt_index (addr : Nat) : Nat := addr / 2 ^ 12 % 512

/-- `Mapper::ensure_next_table`.  Reads the entry, and if it is unused
allocates a frame, zeroes the new table, links it with PRESENT|WRITABLE
and returns it; otherwise returns the existing child table address.
`none` models the `expect("no free frames for paging structures")` panic
and the debug assertion inside `PageTableEntry::set`. -/
def ensure_next_table (st : MachSt) (tablePhys index : Nat) :
    Option (Nat × MachSt) :=
  let e := st.mem tablePhys index
  if PageTableEntry.is_unused e then
    match allocStep st.frames with
    | none => none
    | some (frame, rest) =>
      let m1 := memSet st.mem frame zeroTbl
      match PageTableEntry.set frame (flags.PRESENT ||| flags.WRITABLE) with
      | none => none
      | some v =>
        some (frame, ⟨memSet m1 tablePhys (tblSet (m1 tablePhys) index v), rest⟩)
  else some (PageTableEntry.addr e, st)

/-- `Mapper::map_page`: walk the three upper levels via
`ensure_next_table`, then install the leaf entry only if it is unused
(an already-present leaf is left untouched). -/
def map_page (pml4_phys : Nat) (st : MachSt) (virt phys fl : Nat) :
    Option MachSt := do
  let (t1, st1) ← ensure_next_table st pml4_phys (pml4_index virt)
  let (t2, st2) ← ensure_next_table st1 t1 (pdpt_index virt)
  let (t3, st3) ← ensure_next_table st2 t2 (pd_index virt)
  let e := st3.mem t3 (pt_index virt)
  if PageTableEntry.is_unused e then
    match PageTableEntry.set phys fl with
    | none => none
    | some v =>
      some ⟨memSet st3.mem t3 (tblSet (st3.mem t3) (pt_index virt) v),
        st3.frames⟩
  else
    some st3

/-- The `while addr < end` loop body of `Mapper::identity_map_range`. -/
def mapLoop (pml4_phys fl endA addr : Nat) (st : MachSt) : Option MachSt :=
  if h : addr < endA then
    match map_page pml4_phys st addr addr fl with
    | none => none
    | some st' => mapLoop pml4_phys fl endA (addr + FRAME_SIZE) st'
  else some st
termination_by endA - addr
decreasing_by
  unfold FRAME_SIZE
  omega

/-- `Mapper::identity_map_range`: round `start` down and `end` up to page
boundaries, then map each page to itself. -/
def identity_map_range (pml4_phys : Nat) (st : MachSt)
    (start endA fl : Nat) : Option MachSt :=
  mapLoop pml4_phys fl (align_up endA) (pageFloor start) st

theorem tblSet_self (t : Tbl) (i : Nat) : tblSet t i (t i) = t := by
  funext j
  unfold tblSet
  by_cases h : j = i
  · rw [if_pos h, h]
  · rw [if_neg h]

theorem memSet_self (m : Mem) (p : Nat) : memSet m p (m p) = m := by
  funext q
  unfold memSet
  by_cases h : q = p
  · rw [if_pos h, h]
  · rw [if_neg h]

theorem memSet_ne (m : Mem) (p : Nat) (t : Tbl) {q : Nat} (h : q ≠ p) :
    memSet m p t q = m q := by
  unfold memSet
  rw [if_neg h]

theorem memSet_eq (m : Mem) (p : Nat) (t : Tbl) : memSet m p t p = t := by
  unfold memSet
  rw [if_pos rfl]

theorem tblSet_ne (t : Tbl) (i v : Nat) {j : Nat} (h : j ≠ i) :
    tblSet t i v j = t j := by
  unfold tblSet
  rw [if_neg h]

theorem tblSet_eq (t : Tbl) (i v : Nat) : tblSet t i v i = v := by
  unfold tblSet
  rw [if_pos rfl]

theorem is_unused_of_odd {e : Nat} (h : e % 2 = 1) :
    PageTableEntry.is_unused e = false := by
  rw [is_unused_eq, h]
  rfl

theorem is_unused_zero : PageTableEntry.is_unused 0 = true := by
  rw [is_unused_eq]
  rfl

theorem even_of_is_unused {e : Nat}
    (h : PageTableEntry.is_unused e = true) : e % 2 = 0 := by
  rw [is_unused_eq] at h
  simpa using h

/-- Whether the raw value the setter builds is unused depends only on
the flag word, so two values built from the same flags agree on it. -/
theorem is_unused_entrySetRaw_congr {p q fl : Nat}
    (h : PageTableEntry.is_unused (entrySetRaw p fl) = true) :
    PageTableEntry.is_unused (entrySetRaw q fl) = true := by
  have hp : entrySetRaw p fl % 2 = 0 := even_of_is_unused h
  rw [entrySetRaw_mod_two] at hp
  have hq : entrySetRaw q fl % 2 = 0 := by
    rw [entrySetRaw_mod_two]
    exact hp
  rw [is_unused_eq, hq]
  rfl

/-- Two machine states with the same memory and the same allocator
stream are the same state. -/
theorem machSt_ext {a b : MachSt} (hm : a.mem = b.mem)
    (hf : a.frames = b.frames) : a = b := by
  obtain ⟨am, af⟩ := a
  obtain ⟨bm, bf⟩ := b
  exact congr (congrArg MachSt.mk hm) hf

/-- The level-2 table the walk for `virt` reaches from the root in `m`. -/
def pathT1 (pml4 : Nat) (m : Mem) (virt : Nat) : Nat :=
  PageTableEntry.addr (m pml4 (pml4_index virt))

/-- The level-3 table the walk for `virt` reaches in `m`. -/
def pathT2 (pml4 : Nat) (m : Mem) (virt : Nat) : Nat :=
  PageTableEntry.addr (m (pathT1 pml4 m virt) (pdpt_index virt))

/-- The leaf table the walk for `virt` reaches in `m`. -/
def pathT3 (pml4 : Nat) (m : Mem) (virt : Nat) : Nat :=
  PageTableEntry.addr (m (pathT2 pml4 m virt) (pd_index virt))

/-- All four entries along the walk for `virt` are present, so a repeated
`map_page` takes the reuse branch at every level and the skip branch at
the leaf. -/
def PathPresent (pml4 : Nat) (m : Mem) (virt : Nat) : Prop :=
  PageTableEntry.is_unused (m pml4 (pml4_index virt)) = false ∧
  PageTableEntry.is_unused (m (pathT1 pml4 m virt) (pdpt_index virt)) = false ∧
  PageTableEntry.is_unused (m (pathT2 pml4 m virt) (pd_index virt)) = false ∧
  PageTableEntry.is_unused (m (pathT3 pml4 m virt) (pt_index virt)) = false

/-- The three intermediate entries along the walk for `virt` are
present, so a repeated `map_page` takes the reuse branch at all three
upper levels and allocates nothing, whatever the leaf entry holds. -/
def PathReady (pml4 : Nat) (m : Mem) (virt : Nat) : Prop :=
  PageTableEntry.is_unused (m pml4 (pml4_index virt)) = false ∧
  PageTableEntry.is_unused (m (pathT1 pml4 m virt) (pdpt_index virt)) = false ∧
  PageTableEntry.is_unused (m (pathT2 pml4 m virt) (pd_index virt)) = false

/-- Memory evolution during a mapper call, restricted to `U`-tables: a
present slot keeps its exact value byte for byte; only unused slots may
change (the mapper writes nothing over a present entry). -/
def Pres (U : Nat → Prop) (m m' : Mem) : Prop :=
  ∀ t i, U t → (m' t i = m t i ∨
    PageTableEntry.is_unused (m t i) = true)

theorem pres_refl (U : Nat → Prop) (m : Mem) : Pres U m m :=
  fun _ _ _ => Or.inl rfl

theorem pres_mono {U V : Nat → Prop} {m m' : Mem}
    (hUV : ∀ x, U x → V x) (h : Pres V m m') : Pres U m m' :=
  fun t i ht => h t i (hUV t ht)

theorem pres_trans {U : Nat → Prop} {m1 m2 m3 : Mem}
    (h12 : Pres U m1 m2) (h23 : Pres U m2 m3) : Pres U m1 m3 := by
  intro t i ht
  rcases h12 t i ht with he | hu
  · rcases h23 t i ht with he' | hu'
    · left
      rw [he', he]
    · right
      rw [he] at hu'
      exact hu'
  · right
    exact hu

theorem pres_present_eq {U : Nat → Prop} {m m' : Mem} {t i : Nat}
    (h : Pres U m m') (ht : U t)
    (hp : PageTableEntry.is_unused (m t i) = false) : m' t i = m t i := by
  rcases h t i ht with he | hu
  · exact he
  · rw [hp] at hu
    exact absurd hu (by simp)

theorem ensure_present_eq {st : MachSt} {tp idx : Nat}
    (h : PageTableEntry.is_unused (st.mem tp idx) = false) :
    ensure_next_table st tp idx =
      some (PageTableEntry.addr (st.mem tp idx), st) := by
  simp only [ensure_next_table, h]
  simp

theorem ensure_unused_eq {st : MachSt} {tp idx f : Nat} {rest : List Nat}
    (h : PageTableEntry.is_unused (st.mem tp idx) = true)
    (hf : st.frames = f :: rest) (hal : f % 4096 = 0) :
    ensure_next_table st tp idx =
      some (f, ⟨memSet (memSet st.mem f zeroTbl) tp
        (tblSet (memSet st.mem f zeroTbl tp) idx
          (entrySetRaw f (flags.PRESENT ||| flags.WRITABLE))), rest⟩) := by
  simp only [ensure_next_table, h, hf, allocStep, PageTableEntry.set,
    land_fff_eq_mod, hal]
  simp

theorem ensure_exhausted {st : MachSt} {tp idx : Nat}
    (h : PageTableEntry.is_unused (st.mem tp idx) = true)
    (hf : st.frames = []) :
    ensure_next_table st tp idx = none := by
  simp only [ensure_next_table, h, hf, allocStep]
  simp

/-- Branch description of `ensure_next_table`: either the entry was
present and the state is untouched (child reused), or the head of the
allocator stream was consumed and exactly the zero-then-link double
write was performed. -/
theorem ensure_step {st st' : MachSt} {tp idx t' : Nat}
    (halign : ∀ f, f ∈ st.frames → f % 4096 = 0)
    (h : ensure_next_table st tp idx = some (t', st')) :
    (st' = st ∧ PageTableEntry.is_unused (st.mem tp idx) = false ∧
      t' = PageTableEntry.addr (st.mem tp idx)) ∨
    (∃ rest, st.frames = t' :: rest ∧
      PageTableEntry.is_unused (st.mem tp idx) = true ∧
      st' = ⟨memSet (memSet st.mem t' zeroTbl) tp
        (tblSet (memSet st.mem t' zeroTbl tp) idx
          (entrySetRaw t' (flags.PRESENT ||| flags.WRITABLE))), rest⟩) := by
  by_cases hu : PageTableEntry.is_unused (st.mem tp idx) = true
  · cases hfr : st.frames with
    | nil =>
      rw [ensure_exhausted hu hfr] at h
      exact absurd h (by simp)
    | cons f rest =>
      have hal : f % 4096 = 0 := halign f (by
        rw [hfr]
        exact List.mem_cons_self f rest)
      rw [ensure_unused_eq hu hfr hal] at h
      simp only [Option.some.injEq, Prod.mk.injEq] at h
      obtain ⟨h1, h2⟩ := h
      subst h1
      subst h2
      right
      exact ⟨rest, rfl, hu, rfl⟩
  · have hu' : PageTableEntry.is_unused (st.mem tp idx) = false := by
      revert hu
      cases PageTableEntry.is_unused (st.mem tp idx) <;> simp
    rw [ensure_present_eq hu'] at h
    simp only [Option.some.injEq, Prod.mk.injEq] at h
    obtain ⟨h1, h2⟩ := h
    subst h1
    subst h2
    left
    exact ⟨rfl, hu', rfl⟩

/-- Reading back the parent table after the zero-then-link double write. -/
theorem writeStep_read_tp {m : Mem} {f tp : Nat} (idx v : Nat)
    (hne : tp ≠ f) (i : Nat) :
    memSet (memSet m f zeroTbl) tp (tblSet (memSet m f zeroTbl tp) idx v) tp i
      = tblSet (m tp) idx v i := by
  rw [memSet_eq, memSet_ne m f zeroTbl hne]

/-- Reading back the freshly zeroed table after the double write. -/
theorem writeStep_read_f {m : Mem} {f tp : Nat} (idx v : Nat)
    (hne : tp ≠ f) (i : Nat) :
    memSet (memSet m f zeroTbl) tp (tblSet (memSet m f zeroTbl tp) idx v) f i
      = 0 := by
  rw [memSet_ne _ _ _ (Ne.symm hne), memSet_eq]
  rfl

/-- Any other table is untouched by the double write. -/
theorem writeStep_read_other {m : Mem} {f tp : Nat} (idx v : Nat) {q : Nat}
    (h1 : q ≠ tp) (h2 : q ≠ f) (i : Nat) :
    memSet (memSet m f zeroTbl) tp (tblSet (memSet m f zeroTbl tp) idx v) q i
      = m q i := by
  rw [memSet_ne _ _ _ h1, memSet_ne _ _ _ h2]

/-- Closure of one hierarchy level into the next: every present entry of
a `P`-table points at a `C`-table. -/
def closure (P C : Nat → Prop) (m : Mem) : Prop :=
  ∀ t i, P t → PageTableEntry.is_unused (m t i) = false →
    C (PageTableEntry.addr (m t i))

/-- A physical address holds one of the tracked hierarchy tables. -/
def tracked (U0 U1 U2 U3 : Nat → Prop) (x : Nat) : Prop :=
  U0 x ∨ U1 x ∨ U2 x ∨ U3 x

/-- Invariant tying a mapper state to the four per-level table sets of
the hierarchy (PML4 roots / PDPTs / PDs / PTs).  It packages the spec's
data-model invariants: the hierarchy is a directed tree, so each table
lives on exactly one level (`disj`) and present entries of a level-`j`
table point at level-`j+1` tables (`c0`..`c2`, leaf tables point at data
frames and carry no closure obligation), and the allocator hands out
page-aligned frames below 2^52, pairwise distinct and disjoint from the
hierarchy (`fresh`, `nodup`, `aligned`). -/
structure Hier4 (pml4 : Nat) (U0 U1 U2 U3 : Nat → Prop) (st : MachSt) :
    Prop where
  root : U0 pml4
  c0 : closure U0 U1 st.mem
  c1 : closure U1 U2 st.mem
  c2 : closure U2 U3 st.mem
  d01 : ∀ x, U0 x → U1 x → False
  d02 : ∀ x, U0 x → U2 x → False
  d03 : ∀ x, U0 x → U3 x → False
  d12 : ∀ x, U1 x → U2 x → False
  d13 : ∀ x, U1 x → U3 x → False
  d23 : ∀ x, U2 x → U3 x → False
  fresh : ∀ f, f ∈ st.frames → ¬ tracked U0 U1 U2 U3 f
  nodup : st.frames.Nodup
  aligned : ∀ f, f ∈ st.frames → f % 4096 = 0 ∧ f < 2 ^ 52

/-- The double write only changes tracked tables at one slot that was
unused, provided the fresh frame is untracked. -/
theorem writeStep_pres {W : Nat → Prop} {m : Mem} {f tp idx v : Nat}
    (hfW : ¬ W f) (hne : tp ≠ f)
    (hu : PageTableEntry.is_unused (m tp idx) = true) :
    Pres W m (memSet (memSet m f zeroTbl) tp
      (tblSet (memSet m f zeroTbl tp) idx v)) := by
  intro t i htW
  have htf : t ≠ f := fun e => hfW (e ▸ htW)
  by_cases htp : t = tp
  · subst htp
    by_cases hi : i = idx
    · subst hi
      exact Or.inr hu
    · rw [writeStep_read_tp idx v hne, tblSet_ne _ _ _ hi]
      exact Or.inl rfl
  · rw [writeStep_read_other idx v htp htf]
    exact Or.inl rfl

/-- Closure of a level not involved in the double write is preserved. -/
theorem writeStep_closure_other {P C : Nat → Prop} {m : Mem}
    {f tp idx v : Nat} (hc : closure P C m) (hfP : ¬ P f) (htpP : ¬ P tp)
    (hne : tp ≠ f) :
    closure P C (memSet (memSet m f zeroTbl) tp
      (tblSet (memSet m f zeroTbl tp) idx v)) := by
  intro t i htP hpres
  have h1 : t ≠ tp := fun e => htpP (e ▸ htP)
  have h2 : t ≠ f := fun e => hfP (e ▸ htP)
  rw [writeStep_read_other idx v h1 h2] at hpres ⊢
  exact hc t i htP hpres

/-- Closure of the level whose table received the link: the child set
grows by the fresh frame. -/
theorem writeStep_closure_parent {P C : Nat → Prop} {m : Mem}
    {f tp idx v : Nat} (hc : closure P C m) (hfP : ¬ P f) (hne : tp ≠ f)
    (haddr : PageTableEntry.addr v = f) :
    closure P (fun x => C x ∨ x = f)
      (memSet (memSet m f zeroTbl) tp
        (tblSet (memSet m f zeroTbl tp) idx v)) := by
  intro t i htP hpres
  have h2 : t ≠ f := fun e => hfP (e ▸ htP)
  by_cases h1 : t = tp
  · subst h1
    rw [writeStep_read_tp idx v hne] at hpres ⊢
    by_cases hi : i = idx
    · subst hi
      rw [tblSet_eq] at hpres ⊢
      exact Or.inr haddr
    · rw [tblSet_ne _ _ _ hi] at hpres ⊢
      exact Or.inl (hc t i htP hpres)
  · rw [writeStep_read_other idx v h1 h2] at hpres ⊢
    exact Or.inl (hc t i htP hpres)

/-- The freshly zeroed table satisfies any closure obligation vacuously,
so it can join a parent set. -/
theorem writeStep_closure_withF {P C : Nat → Prop} {m : Mem}
    {f tp idx v : Nat} (hc : closure P C (memSet (memSet m f zeroTbl) tp
      (tblSet (memSet m f zeroTbl tp) idx v))) (hne2 : tp ≠ f) :
    closure (fun x => P x ∨ x = f) C
      (memSet (memSet m f zeroTbl) tp
        (tblSet (memSet m f zeroTbl tp) idx v)) := by
  intro t i htP hpres
  rcases htP with htP | rfl
  · exact hc t i htP hpres
  · rw [writeStep_read_f idx v hne2] at hpres
    rw [is_unused_zero] at hpres
    exact absurd hpres (by simp)

/-- A ready path stays ready across any evolution that preserves
tracked tables, and it keeps pointing at the same three intermediate
tables, because those tables live in the tracked sets (via the level
closures) and present entries keep their value. -/
theorem pathReady_pres {pml4 : Nat} {U0 U1 U2 U3 : Nat → Prop}
    {m m' : Mem} {virt : Nat} (hroot : U0 pml4)
    (hc0 : closure U0 U1 m) (hc1 : closure U1 U2 m)
    (hpres : Pres (tracked U0 U1 U2 U3) m m')
    (hp : PathReady pml4 m virt) :
    PathReady pml4 m' virt ∧
    pathT1 pml4 m' virt = pathT1 pml4 m virt ∧
    pathT2 pml4 m' virt = pathT2 pml4 m virt ∧
    pathT3 pml4 m' virt = pathT3 pml4 m virt := by
  obtain ⟨h1, h2, h3⟩ := hp
  have hU1 : U1 (pathT1 pml4 m virt) := hc0 _ _ hroot h1
  have hU2 : U2 (pathT2 pml4 m virt) := hc1 _ _ hU1 h2
  have e1 : m' pml4 (pml4_index virt) = m pml4 (pml4_index virt) :=
    pres_present_eq hpres (Or.inl hroot) h1
  have t1eq : pathT1 pml4 m' virt = pathT1 pml4 m virt := by
    unfold pathT1
    rw [e1]
  have e2 : m' (pathT1 pml4 m virt) (pdpt_index virt) =
      m (pathT1 pml4 m virt) (pdpt_index virt) :=
    pres_present_eq hpres (Or.inr (Or.inl hU1)) h2
  have t2eq : pathT2 pml4 m' virt = pathT2 pml4 m virt := by
    unfold pathT2
    rw [t1eq, e2]
  have e3 : m' (pathT2 pml4 m virt) (pd_index virt) =
      m (pathT2 pml4 m virt) (pd_index virt) :=
    pres_present_eq hpres (Or.inr (Or.inr (Or.inl hU2))) h3
  have t3eq : pathT3 pml4 m' virt = pathT3 pml4 m virt := by
    unfold pathT3
    rw [t2eq, e3]
  refine ⟨⟨?_, ?_, ?_⟩, t1eq, t2eq, t3eq⟩
  · rw [e1]
    exact h1
  · rw [t1eq, e2]
    exact h2
  · rw [t2eq, e3]
    exact h3

/-- The tables a ready walk passes through belong to the per-level
table sets, via the level closures. -/
theorem path_tables_mem {pml4 : Nat} {U0 U1 U2 U3 : Nat → Prop}
    {m : Mem} {virt : Nat} (hroot : U0 pml4)
    (hc0 : closure U0 U1 m) (hc1 : closure U1 U2 m)
    (hc2 : closure U2 U3 m) (hp : PathReady pml4 m virt) :
    U1 (pathT1 pml4 m virt) ∧ U2 (pathT2 pml4 m virt) ∧
      U3 (pathT3 pml4 m virt) := by
  obtain ⟨h1, h2, h3⟩ := hp
  have hU1 : U1 (pathT1 pml4 m virt) := hc0 _ _ hroot h1
  have hU2 : U2 (pathT2 pml4 m virt) := hc1 _ _ hU1 h2
  exact ⟨hU1, hU2, hc2 _ _ hU2 h3⟩

theorem map_page_unfold (pml4 : Nat) (st : MachSt) (virt phys fl : Nat) :
    map_page pml4 st virt phys fl =
      Option.bind (ensure_next_table st pml4 (pml4_index virt)) (fun p1 =>
        Option.bind (ensure_next_table p1.2 p1.1 (pdpt_index virt)) (fun p2 =>
          Option.bind (ensure_next_table p2.2 p2.1 (pd_index virt)) (fun p3 =>
            if PageTableEntry.is_unused (p3.2.mem p3.1 (pt_index virt)) then
              match PageTableEntry.set phys fl with
              | none => none
              | some v => some ⟨memSet p3.2.mem p3.1
                  (tblSet (p3.2.mem p3.1) (pt_index virt) v), p3.2.frames⟩
            else some p3.2))) := rfl

/-- The leaf write only changes one slot that was unused. -/
theorem leafWrite_pres {W : Nat → Prop} {m : Mem} {t3 i4 v : Nat}
    (hu : PageTableEntry.is_unused (m t3 i4) = true) :
    Pres W m (memSet m t3 (tblSet (m t3) i4 v)) := by
  intro t i _
  by_cases ht : t = t3
  · subst ht
    rw [memSet_eq]
    by_cases hi : i = i4
    · subst hi
      exact Or.inr hu
    · rw [tblSet_ne _ _ _ hi]
      exact Or.inl rfl
  · rw [memSet_ne _ _ _ ht]
    exact Or.inl rfl

/-- A level whose tables do not include the leaf table keeps its
closure across the leaf write. -/
theorem leafWrite_closure {P C : Nat → Prop} {m : Mem} {t3 i4 v : Nat}
    (hc : closure P C m) (ht3 : ¬ P t3) :
    closure P C (memSet m t3 (tblSet (m t3) i4 v)) := by
  intro t i htP hpres
  have ht : t ≠ t3 := fun e => ht3 (e ▸ htP)
  rw [memSet_ne _ _ _ ht] at hpres ⊢
  exact hc t i htP hpres

theorem ensure_lvl0 {pml4 : Nat} {st st' : MachSt} {idx t' : Nat}
    {U0 U1 U2 U3 : Nat → Prop} (hH : Hier4 pml4 U0 U1 U2 U3 st)
    (h : ensure_next_table st pml4 idx = some (t', st')) :
    ∃ V1 : Nat → Prop, (∀ x, U1 x → V1 x) ∧
      Hier4 pml4 U0 V1 U2 U3 st' ∧ V1 t' ∧
      Pres (tracked U0 U1 U2 U3) st.mem st'.mem ∧
      PageTableEntry.is_unused (st'.mem pml4 idx) = false ∧
      PageTableEntry.addr (st'.mem pml4 idx) = t' ∧
      (∀ t i, U3 t → st'.mem t i = st.mem t i) := by
  rcases ensure_step (fun f hf => (hH.aligned f hf).1) h with
    ⟨rfl, hu, rfl⟩ | ⟨rest, hfr, hu, rfl⟩
  · exact ⟨U1, fun _ hx => hx, hH, hH.c0 _ _ hH.root hu, pres_refl _ _,
      hu, rfl, fun _ _ _ => rfl⟩
  · have hmemf : t' ∈ st.frames := by
      rw [hfr]
      exact List.mem_cons_self t' rest
    have hfT : ¬ tracked U0 U1 U2 U3 t' := hH.fresh t' hmemf
    have hf0 : ¬ U0 t' := fun hx => hfT (Or.inl hx)
    have hf1 : ¬ U1 t' := fun hx => hfT (Or.inr (Or.inl hx))
    have hf2 : ¬ U2 t' := fun hx => hfT (Or.inr (Or.inr (Or.inl hx)))
    have hf3 : ¬ U3 t' := fun hx => hfT (Or.inr (Or.inr (Or.inr hx)))
    have hne : pml4 ≠ t' := fun e => hf0 (e ▸ hH.root)
    have hal : t' % 4096 = 0 := (hH.aligned t' hmemf).1
    have hlt : t' < 2 ^ 52 := (hH.aligned t' hmemf).2
    have hvodd : entrySetRaw t' (flags.PRESENT ||| flags.WRITABLE) % 2 = 1 := by
      rw [entrySetRaw_mod_two]
      decide
    have hvpres : PageTableEntry.is_unused
        (entrySetRaw t' (flags.PRESENT ||| flags.WRITABLE)) = false :=
      is_unused_of_odd hvodd
    have haddrv : PageTableEntry.addr
        (entrySetRaw t' (flags.PRESENT ||| flags.WRITABLE)) = t' := by
      rw [addr_entrySetRaw, land_addressMask_of_aligned hal hlt]
    have hnd := hH.nodup
    rw [hfr] at hnd
    refine ⟨fun x => U1 x ∨ x = t', fun x hx => Or.inl hx,
      ⟨hH.root, ?_, ?_, ?_, ?_, hH.d02, hH.d03, ?_, ?_, hH.d23, ?_, ?_, ?_⟩,
      Or.inr rfl, ?_, ?_, ?_, ?_⟩
    · exact writeStep_closure_parent hH.c0 hf0 hne haddrv
    · exact writeStep_closure_withF
        (writeStep_closure_other hH.c1 hf1 (fun hx => hH.d01 pml4 hH.root hx)
          hne) hne
    · exact writeStep_closure_other hH.c2 hf2
        (fun hx => hH.d02 pml4 hH.root hx) hne
    · intro x hx0 hx1
      rcases hx1 with hx1 | rfl
      · exact hH.d01 x hx0 hx1
      · exact hf0 hx0
    · intro x hx1 hx2
      rcases hx1 with hx1 | rfl
      · exact hH.d12 x hx1 hx2
      · exact hf2 hx2
    · intro x hx1 hx3
      rcases hx1 with hx1 | rfl
      · exact hH.d13 x hx1 hx3
      · exact hf3 hx3
    · intro g hg
      dsimp only at hg
      have hgfr : g ∈ st.frames := by
        rw [hfr]
        exact List.mem_cons_of_mem t' hg
      have hgne : g ≠ t' := fun e => (List.nodup_cons.mp hnd).1 (e ▸ hg)
      intro htr
      rcases htr with hx | hx | hx | hx
      · exact hH.fresh g hgfr (Or.inl hx)
      · rcases hx with hx | hx
        · exact hH.fresh g hgfr (Or.inr (Or.inl hx))
        · exact hgne hx
      · exact hH.fresh g hgfr (Or.inr (Or.inr (Or.inl hx)))
      · exact hH.fresh g hgfr (Or.inr (Or.inr (Or.inr hx)))
    · exact (List.nodup_cons.mp hnd).2
    · intro g hg
      dsimp only at hg
      apply hH.aligned
      rw [hfr]
      exact List.mem_cons_of_mem t' hg
    · exact writeStep_pres hfT hne hu
    · dsimp only
      rw [writeStep_read_tp _ _ hne, tblSet_eq]
      exact hvpres
    · dsimp only
      rw [writeStep_read_tp _ _ hne, tblSet_eq]
      exact haddrv
    · intro t i ht3
      have hq1 : t ≠ pml4 := fun e => hH.d03 pml4 hH.root (e ▸ ht3)
      have hq2 : t ≠ t' := fun e => hf3 (e ▸ ht3)
      dsimp only
      exact writeStep_read_other _ _ hq1 hq2 i

theorem ensure_lvl1 {pml4 : Nat} {st st' : MachSt} {tp idx t' : Nat}
    {U0 U1 U2 U3 : Nat → Prop} (hH : Hier4 pml4 U0 U1 U2 U3 st)
    (htp : U1 tp)
    (h : ensure_next_table st tp idx = some (t', st')) :
    ∃ V2 : Nat → Prop, (∀ x, U2 x → V2 x) ∧
      Hier4 pml4 U0 U1 V2 U3 st' ∧ V2 t' ∧
      Pres (tracked U0 U1 U2 U3) st.mem st'.mem ∧
      PageTableEntry.is_unused (st'.mem tp idx) = false ∧
      PageTableEntry.addr (st'.mem tp idx) = t' ∧
      (∀ t i, U3 t → st'.mem t i = st.mem t i) := by
  rcases ensure_step (fun f hf => (hH.aligned f hf).1) h with
    ⟨rfl, hu, rfl⟩ | ⟨rest, hfr, hu, rfl⟩
  · exact ⟨U2, fun _ hx => hx, hH, hH.c1 _ _ htp hu, pres_refl _ _,
      hu, rfl, fun _ _ _ => rfl⟩
  · have hmemf : t' ∈ st.frames := by
      rw [hfr]
      exact List.mem_cons_self t' rest
    have hfT : ¬ tracked U0 U1 U2 U3 t' := hH.fresh t' hmemf
    have hf0 : ¬ U0 t' := fun hx => hfT (Or.inl hx)
    have hf1 : ¬ U1 t' := fun hx => hfT (Or.inr (Or.inl hx))
    have hf2 : ¬ U2 t' := fun hx => hfT (Or.inr (Or.inr (Or.inl hx)))
    have hf3 : ¬ U3 t' := fun hx => hfT (Or.inr (Or.inr (Or.inr hx)))
    have hne : tp ≠ t' := fun e => hf1 (e ▸ htp)
    have hal : t' % 4096 = 0 := (hH.aligned t' hmemf).1
    have hlt : t' < 2 ^ 52 := (hH.aligned t' hmemf).2
    have hvodd : entrySetRaw t' (flags.PRESENT ||| flags.WRITABLE) % 2 = 1 := by
      rw [entrySetRaw_mod_two]
      decide
    have hvpres : PageTableEntry.is_unused
        (entrySetRaw t' (flags.PRESENT ||| flags.WRITABLE)) = false :=
      is_unused_of_odd hvodd
    have haddrv : PageTableEntry.addr
        (entrySetRaw t' (flags.PRESENT ||| flags.WRITABLE)) = t' := by
      rw [addr_entrySetRaw, land_addressMask_of_aligned hal hlt]
    have hnd := hH.nodup
    rw [hfr] at hnd
    refine ⟨fun x => U2 x ∨ x = t', fun x hx => Or.inl hx,
      ⟨hH.root, ?_, ?_, ?_, hH.d01, ?_, hH.d03, ?_, hH.d13, ?_, ?_, ?_, ?_⟩,
      Or.inr rfl, ?_, ?_, ?_, ?_⟩
    · exact writeStep_closure_other hH.c0 hf0
        (fun hx => hH.d01 tp hx htp) hne
    · exact writeStep_closure_parent hH.c1 hf1 hne haddrv
    · exact writeStep_closure_withF
        (writeStep_closure_other hH.c2 hf2 (fun hx => hH.d12 tp htp hx)
          hne) hne
    · intro x hx0 hx2
      rcases hx2 with hx2 | rfl
      · exact hH.d02 x hx0 hx2
      · exact hf0 hx0
    · intro x hx1 hx2
      rcases hx2 with hx2 | rfl
      · exact hH.d12 x hx1 hx2
      · exact hf1 hx1
    · intro x hx2 hx3
      rcases hx2 with hx2 | rfl
      · exact hH.d23 x hx2 hx3
      · exact hf3 hx3
    · intro g hg
      dsimp only at hg
      have hgfr : g ∈ st.frames := by
        rw [hfr]
        exact List.mem_cons_of_mem t' hg
      have hgne : g ≠ t' := fun e => (List.nodup_cons.mp hnd).1 (e ▸ hg)
      intro htr
      rcases htr with hx | hx | hx | hx
      · exact hH.fresh g hgfr (Or.inl hx)
      · exact hH.fresh g hgfr (Or.inr (Or.inl hx))
      · rcases hx with hx | hx
        · exact hH.fresh g hgfr (Or.inr (Or.inr (Or.inl hx)))
        · exact hgne hx
      · exact hH.fresh g hgfr (Or.inr (Or.inr (Or.inr hx)))
    · exact (List.nodup_cons.mp hnd).2
    · intro g hg
      dsimp only at hg
      apply hH.aligned
      rw [hfr]
      exact List.mem_cons_of_mem t' hg
    · exact writeStep_pres hfT hne hu
    · dsimp only
      rw [writeStep_read_tp _ _ hne, tblSet_eq]
      exact hvpres
    · dsimp only
      rw [writeStep_read_tp _ _ hne, tblSet_eq]
      exact haddrv
    · intro t i ht3
      have hq1 : t ≠ tp := fun e => hH.d13 tp htp (e ▸ ht3)
      have hq2 : t ≠ t' := fun e => hf3 (e ▸ ht3)
      dsimp only
      exact writeStep_read_other _ _ hq1 hq2 i

theorem ensure_lvl2 {pml4 : Nat} {st st' : MachSt} {tp idx t' : Nat}
    {U0 U1 U2 U3 : Nat → Prop} (hH : Hier4 pml4 U0 U1 U2 U3 st)
    (htp : U2 tp)
    (h : ensure_next_table st tp idx = some (t', st')) :
    ∃ V3 : Nat → Prop, (∀ x, U3 x → V3 x) ∧
      Hier4 pml4 U0 U1 U2 V3 st' ∧ V3 t' ∧
      Pres (tracked U0 U1 U2 U3) st.mem st'.mem ∧
      PageTableEntry.is_unused (st'.mem tp idx) = false ∧
      PageTableEntry.addr (st'.mem tp idx) = t' ∧
      (∀ t i, U3 t → st'.mem t i = st.mem t i) := by
  rcases ensure_step (fun f hf => (hH.aligned f hf).1) h with
    ⟨rfl, hu, rfl⟩ | ⟨rest, hfr, hu, rfl⟩
  · exact ⟨U3, fun _ hx => hx, hH, hH.c2 _ _ htp hu, pres_refl _ _,
      hu, rfl, fun _ _ _ => rfl⟩
  · have hmemf : t' ∈ st.frames := by
      rw [hfr]
      exact List.mem_cons_self t' rest
    have hfT : ¬ tracked U0 U1 U2 U3 t' := hH.fresh t' hmemf
    have hf0 : ¬ U0 t' := fun hx => hfT (Or.inl hx)
    have hf1 : ¬ U1 t' := fun hx => hfT (Or.inr (Or.inl hx))
    have hf2 : ¬ U2 t' := fun hx => hfT (Or.inr (Or.inr (Or.inl hx)))
    have hf3 : ¬ U3 t' := fun hx => hfT (Or.inr (Or.inr (Or.inr hx)))
    have hne : tp ≠ t' := fun e => hf2 (e ▸ htp)
    have hal : t' % 4096 = 0 := (hH.aligned t' hmemf).1
    have hlt : t' < 2 ^ 52 := (hH.aligned t' hmemf).2
    have hvodd : entrySetRaw t' (flags.PRESENT ||| flags.WRITABLE) % 2 = 1 := by
      rw [entrySetRaw_mod_two]
      decide
    have hvpres : PageTableEntry.is_unused
        (entrySetRaw t' (flags.PRESENT ||| flags.WRITABLE)) = false :=
      is_unused_of_odd hvodd
    have haddrv : PageTableEntry.addr
        (entrySetRaw t' (flags.PRESENT ||| flags.WRITABLE)) = t' := by
      rw [addr_entrySetRaw, land_addressMask_of_aligned hal hlt]
    have hnd := hH.nodup
    rw [hfr] at hnd
    refine ⟨fun x => U3 x ∨ x = t', fun x hx => Or.inl hx,
      ⟨hH.root, ?_, ?_, ?_, hH.d01, hH.d02, ?_, hH.d12, ?_, ?_, ?_, ?_, ?_⟩,
      Or.inr rfl, ?_, ?_, ?_, ?_⟩
    · exact writeStep_closure_other hH.c0 hf0
        (fun hx => hH.d02 tp hx htp) hne
    · exact writeStep_closure_other hH.c1 hf1
        (fun hx => hH.d12 tp hx htp) hne
    · exact writeStep_closure_parent hH.c2 hf2 hne haddrv
    · intro x hx0 hx3
      rcases hx3 with hx3 | rfl
      · exact hH.d03 x hx0 hx3
      · exact hf0 hx0
    · intro x hx1 hx3
      rcases hx3 with hx3 | rfl
      · exact hH.d13 x hx1 hx3
      · exact hf1 hx1
    · intro x hx2 hx3
      rcases hx3 with hx3 | rfl
      · exact hH.d23 x hx2 hx3
      · exact hf2 hx2
    · intro g hg
      dsimp only at hg
      have hgfr : g ∈ st.frames := by
        rw [hfr]
        exact List.mem_cons_of_mem t' hg
      have hgne : g ≠ t' := fun e => (List.nodup_cons.mp hnd).1 (e ▸ hg)
      intro htr
      rcases htr with hx | hx | hx | hx
      · exact hH.fresh g hgfr (Or.inl hx)
      · exact hH.fresh g hgfr (Or.inr (Or.inl hx))
      · exact hH.fresh g hgfr (Or.inr (Or.inr (Or.inl hx)))
      · rcases hx with hx | hx
        · exact hH.fresh g hgfr (Or.inr (Or.inr (Or.inr hx)))
        · exact hgne hx
    · exact (List.nodup_cons.mp hnd).2
    · intro g hg
      dsimp only at hg
      apply hH.aligned
      rw [hfr]
      exact List.mem_cons_of_mem t' hg
    · exact writeStep_pres hfT hne hu
    · dsimp only
      rw [writeStep_read_tp _ _ hne, tblSet_eq]
      exact hvpres
    · dsimp only
      rw [writeStep_read_tp _ _ hne, tblSet_eq]
      exact haddrv
    · intro t i ht3
      have hq1 : t ≠ tp := fun e => hH.d23 tp htp (e ▸ ht3)
      have hq2 : t ≠ t' := fun e => hf3 (e ▸ ht3)
      dsimp only
      exact writeStep_read_other _ _ hq1 hq2 i

theorem tracked_mono {U0 U1 U2 U3 V1 V2 V3 : Nat → Prop}
    (h1 : ∀ x, U1 x → V1 x) (h2 : ∀ x, U2 x → V2 x)
    (h3 : ∀ x, U3 x → V3 x) :
    ∀ x, tracked U0 U1 U2 U3 x → tracked U0 V1 V2 V3 x := by
  intro x hx
  rcases hx with hx | hx | hx | hx
  · exact Or.inl hx
  · exact Or.inr (Or.inl (h1 x hx))
  · exact Or.inr (Or.inr (Or.inl (h2 x hx)))
  · exact Or.inr (Or.inr (Or.inr (h3 x hx)))

/-- One `map_page` call on a well-formed hierarchy: the per-level sets
may grow, the hierarchy stays a tree, present tracked slots keep their
value, the three intermediate walk entries end up present, the leaf slot
of `virt` ends up either present or holding exactly the value the setter
builds from `phys` and `fl`, and tables of the initial leaf level only
change at that one leaf slot. -/
theorem map_page_spec4 {pml4 : Nat} {st st' : MachSt} {virt phys fl : Nat}
    {U0 U1 U2 U3 : Nat → Prop} (hH : Hier4 pml4 U0 U1 U2 U3 st)
    (h : map_page pml4 st virt phys fl = some st') :
    ∃ V1 V2 V3 : Nat → Prop,
      (∀ x, U1 x → V1 x) ∧ (∀ x, U2 x → V2 x) ∧ (∀ x, U3 x → V3 x) ∧
      Hier4 pml4 U0 V1 V2 V3 st' ∧
      Pres (tracked U0 U1 U2 U3) st.mem st'.mem ∧
      PathReady pml4 st'.mem virt ∧
      (PageTableEntry.is_unused
          (st'.mem (pathT3 pml4 st'.mem virt) (pt_index virt)) = false ∨
        st'.mem (pathT3 pml4 st'.mem virt) (pt_index virt) =
          entrySetRaw phys fl) ∧
      (∀ t i, U3 t → st'.mem t i = st.mem t i ∨
        (t = pathT3 pml4 st'.mem virt ∧ i = pt_index virt)) := by
  rw [map_page_unfold] at h
  cases he1 : ensure_next_table st pml4 (pml4_index virt) with
  | none =>
    rw [he1] at h
    exact absurd h (by simp)
  | some p1 =>
    obtain ⟨t1, st1⟩ := p1
    rw [he1] at h
    simp only [Option.bind] at h
    cases he2 : ensure_next_table st1 t1 (pdpt_index virt) with
    | none =>
      rw [he2] at h
      exact absurd h (by simp)
    | some p2 =>
      obtain ⟨t2, st2⟩ := p2
      rw [he2] at h
      simp only [Option.bind] at h
      cases he3 : ensure_next_table st2 t2 (pd_index virt) with
      | none =>
        rw [he3] at h
        exact absurd h (by simp)
      | some p3 =>
        obtain ⟨t3, st3⟩ := p3
        rw [he3] at h
        simp only [Option.bind] at h
        obtain ⟨V1, hV1m, hH1, hV1t1, hPres1, hp1, ha1, hU3c1⟩ :=
          ensure_lvl0 hH he1
        obtain ⟨V2, hV2m, hH2, hV2t2, hPres2, hp2, ha2, hU3c2⟩ :=
          ensure_lvl1 hH1 hV1t1 he2
        obtain ⟨V3, hV3m, hH3, hV3t3, hPres3, hp3, ha3, hU3c3⟩ :=
          ensure_lvl2 hH2 hV2t2 he3
        have hU3chain : ∀ t i, U3 t → st3.mem t i = st.mem t i :=
          fun t i ht => by
            rw [hU3c3 t i ht, hU3c2 t i ht, hU3c1 t i ht]
        have e1_2 : st2.mem pml4 (pml4_index virt) =
            st1.mem pml4 (pml4_index virt) :=
          pres_present_eq hPres2 (Or.inl hH.root) hp1
        have hp1_2 : PageTableEntry.is_unused
            (st2.mem pml4 (pml4_index virt)) = false := by
          rw [e1_2]
          exact hp1
        have e1_3 : st3.mem pml4 (pml4_index virt) =
            st2.mem pml4 (pml4_index virt) :=
          pres_present_eq hPres3 (Or.inl hH.root) hp1_2
        have hp1_3 : PageTableEntry.is_unused
            (st3.mem pml4 (pml4_index virt)) = false := by
          rw [e1_3]
          exact hp1_2
        have ha1_3 : PageTableEntry.addr (st3.mem pml4 (pml4_index virt)) =
            t1 := by
          rw [e1_3, e1_2]
          exact ha1
        have e2_3 : st3.mem t1 (pdpt_index virt) =
            st2.mem t1 (pdpt_index virt) :=
          pres_present_eq hPres3 (Or.inr (Or.inl hV1t1)) hp2
        have hp2_3 : PageTableEntry.is_unused
            (st3.mem t1 (pdpt_index virt)) = false := by
          rw [e2_3]
          exact hp2
        have ha2_3 : PageTableEntry.addr (st3.mem t1 (pdpt_index virt)) =
            t2 := by
          rw [e2_3]
          exact ha2
        have hPresAll : Pres (tracked U0 U1 U2 U3) st.mem st3.mem :=
          pres_trans (pres_trans hPres1
              (pres_mono (tracked_mono hV1m (fun _ hx => hx)
                (fun _ hx => hx)) hPres2))
            (pres_mono (tracked_mono hV1m hV2m (fun _ hx => hx)) hPres3)
        by_cases hl : PageTableEntry.is_unused
            (st3.mem t3 (pt_index virt)) = true
        · rw [hl] at h
          simp only [if_true] at h
          cases hset : PageTableEntry.set phys fl with
          | none =>
            rw [hset] at h
            exact absurd h (by simp)
          | some v =>
            rw [hset] at h
            simp only [Option.some.injEq] at h
            subst h
            have hv : v = entrySetRaw phys fl := by
              unfold PageTableEntry.set at hset
              by_cases hph : phys &&& 0xFFF = 0
              · rw [if_pos hph] at hset
                exact (Option.some.inj hset).symm
              · rw [if_neg hph] at hset
                exact absurd hset (by simp)
            have hne0 : pml4 ≠ t3 := fun e =>
              hH3.d03 pml4 hH3.root (e ▸ hV3t3)
            have hne1 : t1 ≠ t3 := fun e => hH3.d13 t1 hV1t1 (e ▸ hV3t3)
            have hne2 : t2 ≠ t3 := fun e => hH3.d23 t2 hV2t2 (e ▸ hV3t3)
            have r1 : ∀ i, memSet st3.mem t3
                (tblSet (st3.mem t3) (pt_index virt) v) pml4 i =
                st3.mem pml4 i := fun i => by
              rw [memSet_ne _ _ _ hne0]
            have r2 : ∀ i, memSet st3.mem t3
                (tblSet (st3.mem t3) (pt_index virt) v) t1 i =
                st3.mem t1 i := fun i => by
              rw [memSet_ne _ _ _ hne1]
            have r3 : ∀ i, memSet st3.mem t3
                (tblSet (st3.mem t3) (pt_index virt) v) t2 i =
                st3.mem t2 i := fun i => by
              rw [memSet_ne _ _ _ hne2]
            have r4 : memSet st3.mem t3
                (tblSet (st3.mem t3) (pt_index virt) v) t3 (pt_index virt)
                = v := by
              rw [memSet_eq, tblSet_eq]
            have pt1 : pathT1 pml4 (memSet st3.mem t3
                (tblSet (st3.mem t3) (pt_index virt) v)) virt = t1 := by
              unfold pathT1
              rw [r1, ha1_3]
            have pt2 : pathT2 pml4 (memSet st3.mem t3
                (tblSet (st3.mem t3) (pt_index virt) v)) virt = t2 := by
              unfold pathT2
              rw [pt1, r2, ha2_3]
            have pt3 : pathT3 pml4 (memSet st3.mem t3
                (tblSet (st3.mem t3) (pt_index virt) v)) virt = t3 := by
              unfold pathT3
              rw [pt2, r3, ha3]
            refine ⟨V1, V2, V3, hV1m, hV2m, hV3m, ?_, ?_, ?_, ?_, ?_⟩
            · refine ⟨hH3.root, ?_, ?_, ?_, hH3.d01, hH3.d02, hH3.d03,
                hH3.d12, hH3.d13, hH3.d23, hH3.fresh, hH3.nodup,
                hH3.aligned⟩
              · exact leafWrite_closure hH3.c0
                  (fun hx => hH3.d03 t3 hx hV3t3)
              · exact leafWrite_closure hH3.c1
                  (fun hx => hH3.d13 t3 hx hV3t3)
              · exact leafWrite_closure hH3.c2
                  (fun hx => hH3.d23 t3 hx hV3t3)
            · exact pres_trans hPresAll (leafWrite_pres hl)
            · dsimp only
              refine ⟨?_, ?_, ?_⟩
              · rw [r1]
                exact hp1_3
              · rw [pt1, r2]
                exact hp2_3
              · rw [pt2, r3]
                exact hp3
            · dsimp only
              right
              rw [pt3, r4]
              exact hv
            · intro t i ht
              dsimp only
              by_cases htt : t = t3
              · subst htt
                by_cases hii : i = pt_index virt
                · subst hii
                  exact Or.inr ⟨pt3.symm, rfl⟩
                · left
                  rw [memSet_eq, tblSet_ne _ _ _ hii]
                  exact hU3chain t i ht
              · left
                rw [memSet_ne _ _ _ htt]
                exact hU3chain t i ht
        · have hl' : PageTableEntry.is_unused
              (st3.mem t3 (pt_index virt)) = false := by
            revert hl
            cases PageTableEntry.is_unused (st3.mem t3 (pt_index virt)) <;>
              simp
          rw [hl'] at h
          simp only [Bool.false_eq_true, if_false, Option.some.injEq] at h
          subst h
          have pt1 : pathT1 pml4 st3.mem virt = t1 := by
            unfold pathT1
            rw [ha1_3]
          have pt2 : pathT2 pml4 st3.mem virt = t2 := by
            unfold pathT2 pathT1
            rw [ha1_3, ha2_3]
          have pt3 : pathT3 pml4 st3.mem virt = t3 := by
            unfold pathT3 pathT2 pathT1
            rw [ha1_3, ha2_3, ha3]
          refine ⟨V1, V2, V3, hV1m, hV2m, hV3m, hH3, hPresAll,
            ⟨?_, ?_, ?_⟩, ?_, ?_⟩
          · exact hp1_3
          · rw [pt1]
            exact hp2_3
          · rw [pt2]
            exact hp3
          · left
            rw [pt3]
            exact hl'
          · intro t i ht
            exact Or.inl (hU3chain t i ht)

/-- If the whole walk for `virt` is already present, `map_page` is a
byte-for-byte no-op: it takes the reuse branch three times and the skip
branch at the leaf, and performs no allocation. -/
theorem map_page_noop {pml4 : Nat} {st : MachSt} {virt phys fl : Nat}
    (hp : PathPresent pml4 st.mem virt) :
    map_page pml4 st virt phys fl = some st := by
  obtain ⟨h1, h2, h3, h4⟩ := hp
  unfold pathT1 at h2
  unfold pathT2 pathT1 at h3
  unfold pathT3 pathT2 pathT1 at h4
  rw [map_page_unfold, ensure_present_eq h1]
  simp only [Option.bind]
  rw [ensure_present_eq h2]
  simp only [Option.bind]
  rw [ensure_present_eq h3]
  simp only [Option.bind]
  rw [h4]
  simp

/-- If the three intermediate entries of the walk are present but the
leaf is unused, `map_page` performs exactly the single leaf write — it
takes the reuse branch three times, allocates nothing, and stores the
value the setter builds. -/
theorem map_page_write {pml4 : Nat} {st : MachSt} {virt phys fl : Nat}
    (hp : PathReady pml4 st.mem virt)
    (h4 : PageTableEntry.is_unused
      (st.mem (pathT3 pml4 st.mem virt) (pt_index virt)) = true)
    (hal : phys % 4096 = 0) :
    map_page pml4 st virt phys fl =
      some ⟨memSet st.mem (pathT3 pml4 st.mem virt)
        (tblSet (st.mem (pathT3 pml4 st.mem virt)) (pt_index virt)
          (entrySetRaw phys fl)), st.frames⟩ := by
  obtain ⟨h1, h2, h3⟩ := hp
  unfold pathT1 at h2
  unfold pathT2 pathT1 at h3
  unfold pathT3 pathT2 pathT1 at h4 ⊢
  rw [map_page_unfold, ensure_present_eq h1]
  simp only [Option.bind]
  rw [ensure_present_eq h2]
  simp only [Option.bind]
  rw [ensure_present_eq h3]
  simp only [Option.bind]
  rw [h4]
  simp only [if_true, PageTableEntry.set, land_fff_eq_mod, hal]

/-- The whole mapping loop on a well-formed hierarchy: the hierarchy
stays a tree, present tracked slots keep their value byte for byte,
every page of the range ends with its three intermediate walk entries
present, every page's leaf slot ends either present or holding exactly
the value the setter builds from some page at or after it in the range
that shares the slot (its last writer), and tables of the initial leaf
level only change at leaf slots of range pages. -/
theorem mapLoop_spec {pml4 fl endA : Nat} :
    ∀ fuel addr st st2 U0 U1 U2 U3, endA - addr ≤ fuel →
    Hier4 pml4 U0 U1 U2 U3 st →
    mapLoop pml4 fl endA addr st = some st2 →
    ∃ V1 V2 V3 : Nat → Prop,
      Hier4 pml4 U0 V1 V2 V3 st2 ∧
      Pres (tracked U0 U1 U2 U3) st.mem st2.mem ∧
      (∀ b, addr ≤ b → b < endA → (b - addr) % 4096 = 0 →
        PathReady pml4 st2.mem b) ∧
      (∀ b, addr ≤ b → b < endA → (b - addr) % 4096 = 0 →
        PageTableEntry.is_unused
          (st2.mem (pathT3 pml4 st2.mem b) (pt_index b)) = false ∨
        ∃ c, b ≤ c ∧ c < endA ∧ (c - b) % 4096 = 0 ∧
          pathT3 pml4 st2.mem c = pathT3 pml4 st2.mem b ∧
          pt_index c = pt_index b ∧
          st2.mem (pathT3 pml4 st2.mem b) (pt_index b) = entrySetRaw c fl) ∧
      (∀ t i, U3 t → st2.mem t i = st.mem t i ∨
        ∃ c, addr ≤ c ∧ c < endA ∧ (c - addr) % 4096 = 0 ∧
          pathT3 pml4 st2.mem c = t ∧ pt_index c = i ∧
          (PageTableEntry.is_unused (st2.mem t i) = false ∨
            st2.mem t i = entrySetRaw c fl)) := by
  intro fuel
  induction fuel with
  | zero =>
    intro addr st st2 U0 U1 U2 U3 hle hH h
    unfold mapLoop at h
    rw [dif_neg (by omega)] at h
    simp only [Option.some.injEq] at h
    subst h
    exact ⟨U1, U2, U3, hH, pres_refl _ _,
      fun b hb1 hb2 _ => absurd hb2 (by omega),
      fun b hb1 hb2 _ => absurd hb2 (by omega),
      fun t i _ => Or.inl rfl⟩
  | succ fuel ih =>
    intro addr st st2 U0 U1 U2 U3 hle hH h
    unfold mapLoop at h
    by_cases hlt : addr < endA
    · rw [dif_pos hlt] at h
      cases hmp : map_page pml4 st addr addr fl with
      | none =>
        rw [hmp] at h
        exact absurd h (by simp)
      | some st' =>
        rw [hmp] at h
        rw [show FRAME_SIZE = 4096 from rfl] at h
        obtain ⟨V1, V2, V3, hV1m, hV2m, hV3m, hH1, hPres1, hReady1, hLeaf1,
          hChg1⟩ := map_page_spec4 hH hmp
        obtain ⟨W1, W2, W3, hH2, hPres2, hReady2, hLF2, hE2⟩ :=
          ih (addr + 4096) st' st2 U0 V1 V2 V3 (by omega) hH1 h
        obtain ⟨hV1p, hV2p, hV3p⟩ :=
          path_tables_mem hH1.root hH1.c0 hH1.c1 hH1.c2 hReady1
        obtain ⟨hReadyF, ht1e, ht2e, ht3e⟩ :=
          pathReady_pres hH1.root hH1.c0 hH1.c1 hPres2 hReady1
        have hPresAll : Pres (tracked U0 U1 U2 U3) st.mem st2.mem :=
          pres_trans hPres1
            (pres_mono (tracked_mono hV1m hV2m hV3m) hPres2)
        refine ⟨W1, W2, W3, hH2, hPresAll, ?_, ?_, ?_⟩
        · intro b hb1 hb2 hb3
          by_cases hba : b = addr
          · subst hba
            exact hReadyF
          · exact hReady2 b (by omega) hb2 (by omega)
        · intro b hb1 hb2 hb3
          by_cases hba : b = addr
          · subst hba
            rw [ht3e]
            rcases hLeaf1 with hpr | hval
            · left
              rw [pres_present_eq hPres2
                (Or.inr (Or.inr (Or.inr hV3p))) hpr]
              exact hpr
            · rcases hE2 (pathT3 pml4 st'.mem b) (pt_index b) hV3p
                  with heq | ⟨c, hc1, hc2, hc3, hct, hci, hcv⟩
              · right
                exact ⟨b, Nat.le_refl _, hlt, by omega, ht3e, rfl,
                  by rw [heq]; exact hval⟩
              · rcases hcv with hcp | hcev
                · left
                  exact hcp
                · right
                  exact ⟨c, by omega, hc2, by omega, hct, hci, hcev⟩
          · exact hLF2 b (by omega) hb2 (by omega)
        · intro t i ht
          rcases hE2 t i (hV3m t ht) with heq2 |
            ⟨c, hc1, hc2, hc3, hct, hci, hcv⟩
          · rcases hChg1 t i ht with heq1 | ⟨hts, his⟩
            · exact Or.inl (heq2.trans heq1)
            · right
              refine ⟨addr, Nat.le_refl _, hlt, by omega, ?_, ?_, ?_⟩
              · rw [ht3e, ← hts]
              · rw [← his]
              · rw [heq2, hts, his]
                exact hLeaf1
          · exact Or.inr ⟨c, by omega, hc2, by omega, hct, hci, hcv⟩
    · rw [dif_neg hlt] at h
      simp only [Option.some.injEq] at h
      subst h
      exact ⟨U1, U2, U3, hH, pres_refl _ _,
        fun b hb1 hb2 _ => absurd hb2 (by omega),
        fun b hb1 hb2 _ => absurd hb2 (by omega),
        fun t i _ => Or.inl rfl⟩

/-- Replay: suppose `st1` satisfies the `mapLoop_spec` postcondition for
a page range — intermediate walk entries present for every page, and
every page's leaf slot either present or holding its last writer's
value.  Then running the loop over the same range from any state `X`
that has the same allocator stream and agrees with `st1` everywhere
except possibly at leaf slots of range pages that are unused on both
sides reproduces exactly `st1`: present slots are never touched and
every divergent unused leaf slot is overwritten by the replayed write
sequence, whose last writer restores the `st1` value. -/
theorem mapLoop_replay {pml4 fl endA : Nat} {st1 : MachSt}
    {U0 U1 U2 U3 : Nat → Prop} (hH : Hier4 pml4 U0 U1 U2 U3 st1) :
    ∀ fuel addr X, endA - addr ≤ fuel → addr % 4096 = 0 →
    (∀ b, addr ≤ b → b < endA → (b - addr) % 4096 = 0 →
      PathReady pml4 st1.mem b) →
    (∀ b, addr ≤ b → b < endA → (b - addr) % 4096 = 0 →
      PageTableEntry.is_unused
        (st1.mem (pathT3 pml4 st1.mem b) (pt_index b)) = false ∨
      ∃ c, b ≤ c ∧ c < endA ∧ (c - b) % 4096 = 0 ∧
        pathT3 pml4 st1.mem c = pathT3 pml4 st1.mem b ∧
        pt_index c = pt_index b ∧
        st1.mem (pathT3 pml4 st1.mem b) (pt_index b) = entrySetRaw c fl) →
    X.frames = st1.frames →
    (∀ t i, X.mem t i = st1.mem t i ∨
      ∃ b, addr ≤ b ∧ b < endA ∧ (b - addr) % 4096 = 0 ∧
        pathT3 pml4 st1.mem b = t ∧ pt_index b = i ∧
        PageTableEntry.is_unused (st1.mem t i) = true ∧
        PageTableEntry.is_unused (X.mem t i) = true) →
    mapLoop pml4 fl endA addr X = some st1 := by
  intro fuel
  induction fuel with
  | zero =>
    intro addr X hle hal h1 h2 hfr hX
    unfold mapLoop
    rw [dif_neg (by omega)]
    have hmem : X.mem = st1.mem := by
      funext t i
      rcases hX t i with he | ⟨b, hb1, hb2, _⟩
      · exact he
      · exact absurd hb2 (by omega)
    rw [machSt_ext hmem hfr]
  | succ fuel ih =>
    intro addr X hle hal h1 h2 hfr hX
    unfold mapLoop
    by_cases hlt : addr < endA
    · rw [dif_pos hlt]
      have hpR : PathReady pml4 st1.mem addr :=
        h1 addr (Nat.le_refl _) hlt (by omega)
      obtain ⟨hU1p, hU2p, hU3p⟩ :=
        path_tables_mem hH.root hH.c0 hH.c1 hH.c2 hpR
      have hNotLeaf : ∀ q, (U0 q ∨ U1 q ∨ U2 q) → ∀ j,
          X.mem q j = st1.mem q j := by
        intro q hq j
        rcases hX q j with he | ⟨b, hb1, hb2, hb3, hbt, _⟩
        · exact he
        · exfalso
          have hU3b : U3 (pathT3 pml4 st1.mem b) :=
            (path_tables_mem hH.root hH.c0 hH.c1 hH.c2
              (h1 b hb1 hb2 hb3)).2.2
          rw [hbt] at hU3b
          rcases hq with hq | hq | hq
          · exact hH.d03 q hq hU3b
          · exact hH.d13 q hq hU3b
          · exact hH.d23 q hq hU3b
      have e1 : X.mem pml4 (pml4_index addr) =
          st1.mem pml4 (pml4_index addr) :=
        hNotLeaf pml4 (Or.inl hH.root) _
      have xt1 : pathT1 pml4 X.mem addr = pathT1 pml4 st1.mem addr := by
        unfold pathT1
        rw [e1]
      have e2 : X.mem (pathT1 pml4 st1.mem addr) (pdpt_index addr) =
          st1.mem (pathT1 pml4 st1.mem addr) (pdpt_index addr) :=
        hNotLeaf _ (Or.inr (Or.inl hU1p)) _
      have xt2 : pathT2 pml4 X.mem addr = pathT2 pml4 st1.mem addr := by
        unfold pathT2
        rw [xt1, e2]
      have e3 : X.mem (pathT2 pml4 st1.mem addr) (pd_index addr) =
          st1.mem (pathT2 pml4 st1.mem addr) (pd_index addr) :=
        hNotLeaf _ (Or.inr (Or.inr hU2p)) _
      have xt3 : pathT3 pml4 X.mem addr = pathT3 pml4 st1.mem addr := by
        unfold pathT3
        rw [xt2, e3]
      have hxR : PathReady pml4 X.mem addr := by
        refine ⟨?_, ?_, ?_⟩
        · rw [e1]
          exact hpR.1
        · rw [xt1, e2]
          exact hpR.2.1
        · rw [xt2, e3]
          exact hpR.2.2
      by_cases hleaf : PageTableEntry.is_unused
          (X.mem (pathT3 pml4 st1.mem addr) (pt_index addr)) = true
      · -- the leaf slot is unused in X: map_page replays the write
        have hxleaf : PageTableEntry.is_unused
            (X.mem (pathT3 pml4 X.mem addr) (pt_index addr)) = true := by
          rw [xt3]
          exact hleaf
        rw [map_page_write hxR hxleaf hal]
        show mapLoop pml4 fl endA (addr + FRAME_SIZE)
          ⟨memSet X.mem (pathT3 pml4 X.mem addr)
            (tblSet (X.mem (pathT3 pml4 X.mem addr)) (pt_index addr)
              (entrySetRaw addr fl)), X.frames⟩ = some st1
        rw [show FRAME_SIZE = 4096 from rfl, xt3]
        have hst1u : PageTableEntry.is_unused
            (st1.mem (pathT3 pml4 st1.mem addr) (pt_index addr)) = true := by
          rcases hX (pathT3 pml4 st1.mem addr) (pt_index addr) with
            he | ⟨b, _, _, _, _, _, hu1, _⟩
          · rw [← he]
            exact hleaf
          · exact hu1
        rcases h2 addr (Nat.le_refl _) hlt (by omega) with
          hpres1 | ⟨c, hc1, hc2, hc3, hct, hci, hcv⟩
        · rw [hpres1] at hst1u
          exact absurd hst1u (by simp)
        · -- `c` is the last writer of this slot in the first run
          have hX'other : ∀ t i, ¬(t = pathT3 pml4 st1.mem addr ∧
              i = pt_index addr) →
              memSet X.mem (pathT3 pml4 st1.mem addr)
                (tblSet (X.mem (pathT3 pml4 st1.mem addr)) (pt_index addr)
                  (entrySetRaw addr fl)) t i = X.mem t i := by
            intro t i hni
            by_cases htq : t = pathT3 pml4 st1.mem addr
            · subst htq
              have hi : i ≠ pt_index addr := fun e => hni ⟨rfl, e⟩
              rw [memSet_eq, tblSet_ne _ _ _ hi]
            · rw [memSet_ne _ _ _ htq]
          have hX'slot : memSet X.mem (pathT3 pml4 st1.mem addr)
              (tblSet (X.mem (pathT3 pml4 st1.mem addr)) (pt_index addr)
                (entrySetRaw addr fl)) (pathT3 pml4 st1.mem addr)
              (pt_index addr) = entrySetRaw addr fl := by
            rw [memSet_eq, tblSet_eq]
          refine ih (addr + 4096) _ (by omega) (by omega)
            (fun b hb1 hb2 hb3 => h1 b (by omega) hb2 (by omega))
            (fun b hb1 hb2 hb3 => h2 b (by omega) hb2 (by omega)) ?_ ?_
          · exact hfr
          · intro t i
            dsimp only
            by_cases hslot : t = pathT3 pml4 st1.mem addr ∧ i = pt_index addr
            · obtain ⟨hts, his⟩ := hslot
              subst hts
              subst his
              by_cases hcs : entrySetRaw c fl = entrySetRaw addr fl
              · left
                rw [hX'slot, ← hcs]
                exact hcv.symm
              · right
                have hcne : c ≠ addr := fun e => hcs (by rw [e])
                have hcu : PageTableEntry.is_unused
                    (entrySetRaw addr fl) = true := by
                  have hsu := hst1u
                  rw [hcv] at hsu
                  exact is_unused_entrySetRaw_congr hsu
                refine ⟨c, by omega, hc2, by omega, hct, hci, hst1u, ?_⟩
                rw [hX'slot]
                exact hcu
            · rw [hX'other t i hslot]
              rcases hX t i with he | ⟨b, hb1, hb2, hb3, hbt, hbi, hu1, hu2⟩
              · exact Or.inl he
              · have hbne : b ≠ addr := by
                  intro e
                  subst e
                  exact hslot ⟨hbt.symm, hbi.symm⟩
                exact Or.inr ⟨b, by omega, hb2, by omega, hbt, hbi, hu1, hu2⟩
      · -- the leaf slot is present in X: map_page skips it entirely
        have hleafp : PageTableEntry.is_unused
            (X.mem (pathT3 pml4 X.mem addr) (pt_index addr)) = false := by
          rw [xt3]
          revert hleaf
          cases PageTableEntry.is_unused
            (X.mem (pathT3 pml4 st1.mem addr) (pt_index addr)) <;> simp
        rw [map_page_noop ⟨hxR.1, hxR.2.1, hxR.2.2, hleafp⟩]
        show mapLoop pml4 fl endA (addr + FRAME_SIZE) X = some st1
        rw [show FRAME_SIZE = 4096 from rfl]
        apply ih (addr + 4096) X (by omega) (by omega)
          (fun b hb1 hb2 hb3 => h1 b (by omega) hb2 (by omega))
          (fun b hb1 hb2 hb3 => h2 b (by omega) hb2 (by omega)) hfr
        intro t i
        rcases hX t i with he | ⟨b, hb1, hb2, hb3, hbt, hbi, hu1, hu2⟩
        · exact Or.inl he
        · have hbne : b ≠ addr := by
            intro e
            subst e
            rw [hbt, hbi] at hleaf
            exact hleaf hu2
          exact Or.inr ⟨b, by omega, hb2, by omega, hbt, hbi, hu1, hu2⟩
    · rw [dif_neg hlt]
      have hmem : X.mem = st1.mem := by
        funext t i
        rcases hX t i with he | ⟨b, hb1, hb2, _⟩
        · exact he
        · exact absurd hb2 (by omega)
      rw [machSt_ext hmem hfr]

/-- C9: during a page-mapping walk, at each upper level
(`ensure_next_table`, at the 9-bit index slice of the virtual address):
if the entry is absent, the next frame is obtained from the allocator,
the new table is zeroed, and the entry is installed with exactly the
present and writable flags pointing at that frame, everything else
untouched; if the entry is present, the existing child table (the
entry's address field) is reused and nothing is modified. -/
theorem ensure_next_table_spec :
    (∀ st : MachSt, ∀ tp idx : Nat,
      PageTableEntry.is_unused (st.mem tp idx) = false →
      ensure_next_table st tp idx =
        some (PageTableEntry.addr (st.mem tp idx), st)) ∧
    (∀ st : MachSt, ∀ tp idx f : Nat, ∀ rest : List Nat,
      PageTableEntry.is_unused (st.mem tp idx) = true →
      st.frames = f :: rest → f % 4096 = 0 → f < 2 ^ 52 → tp ≠ f →
      ∃ st', ensure_next_table st tp idx = some (f, st') ∧
        st'.frames = rest ∧
        (∀ i, st'.mem f i = 0) ∧
        st'.mem tp idx = entrySetRaw f (flags.PRESENT ||| flags.WRITABLE) ∧
        PageTableEntry.addr (st'.mem tp idx) = f ∧
        PageTableEntry.flagBits (st'.mem tp idx) =
          (flags.PRESENT ||| flags.WRITABLE) ∧
        (∀ t i, t ≠ tp → t ≠ f → st'.mem t i = st.mem t i) ∧
        (∀ i, i ≠ idx → st'.mem tp i = st.mem tp i)) := by
  constructor
  · intro st tp idx h
    exact ensure_present_eq h
  · intro st tp idx f rest hu hfr hal hlt hne
    refine ⟨_, ensure_unused_eq hu hfr hal, rfl, ?_, ?_, ?_, ?_, ?_, ?_⟩
    · intro i
      exact writeStep_read_f idx _ hne i
    · dsimp only
      rw [writeStep_read_tp _ _ hne, tblSet_eq]
    · dsimp only
      rw [writeStep_read_tp _ _ hne, tblSet_eq, addr_entrySetRaw,
        land_addressMask_of_aligned hal hlt]
    · dsimp only
      rw [writeStep_read_tp _ _ hne, tblSet_eq, flagBits_entrySetRaw]
      decide
    · intro t i ht hf2
      dsimp only
      rw [writeStep_read_other _ _ ht hf2]
    · intro i hi
      dsimp only
      rw [writeStep_read_tp _ _ hne, tblSet_ne _ _ _ hi]

theorem ensure_next_table_spec_witness :
    (PageTableEntry.is_unused
      ((⟨fun _ => fun _ => 3, []⟩ : MachSt).mem 5 7) = false) ∧
    ensure_next_table (⟨fun _ => fun _ => 3, []⟩ : MachSt) 5 7 =
      some (0, (⟨fun _ => fun _ => 3, []⟩ : MachSt)) ∧
    (∃ st', ensure_next_table
        (⟨fun _ => zeroTbl, [0x2000]⟩ : MachSt) 5 7 = some (0x2000, st') ∧
      st'.frames = [] ∧
      (∀ i, st'.mem 0x2000 i = 0) ∧
      st'.mem 5 7 = entrySetRaw 0x2000 (flags.PRESENT ||| flags.WRITABLE) ∧
      PageTableEntry.addr (st'.mem 5 7) = 0x2000 ∧
      PageTableEntry.flagBits (st'.mem 5 7) =
        (flags.PRESENT ||| flags.WRITABLE) ∧
      (∀ t i, t ≠ 5 → t ≠ 0x2000 → st'.mem t i =
        (⟨fun _ => zeroTbl, [0x2000]⟩ : MachSt).mem t i) ∧
      (∀ i, i ≠ 7 → st'.mem 5 i =
        (⟨fun _ => zeroTbl, [0x2000]⟩ : MachSt).mem 5 i)) :=
  ⟨rfl, ensure_next_table_spec.1 ⟨fun _ => fun _ => 3, []⟩ 5 7 rfl,
    ensure_next_table_spec.2 ⟨fun _ => zeroTbl, [0x2000]⟩ 5 7 0x2000 []
      rfl rfl (by decide) (by decide) (by decide)⟩

theorem mapLoop_eq_foldlM {pml4 fl endA : Nat} :
    ∀ n addr st, (endA - addr + 4095) / 4096 = n →
    mapLoop pml4 fl endA addr st =
      ((List.range n).map (fun k => addr + 4096 * k)).foldlM
        (fun st1 a => map_page pml4 st1 a a fl) st := by
  intro n
  induction n with
  | zero =>
    intro addr st hn
    unfold mapLoop
    rw [dif_neg (by omega)]
    rfl
  | succ n ih =>
    intro addr st hn
    unfold mapLoop
    rw [dif_pos (by omega)]
    have hlist : (List.range (n + 1)).map (fun k => addr + 4096 * k) =
        addr :: (List.range n).map (fun k => (addr + 4096) + 4096 * k) := by
      rw [List.range_succ_eq_map, List.map_cons, List.map_map]
      refine congrArg₂ List.cons (by norm_num) ?_
      apply List.map_congr_left
      intro k _
      show addr + 4096 * (k + 1) = addr + 4096 + 4096 * k
      ring
    rw [hlist, List.foldlM_cons]
    cases hmp : map_page pml4 st addr addr fl with
    | none => rfl
    | some st' =>
      show mapLoop pml4 fl endA (addr + FRAME_SIZE) st' =
        ((List.range n).map (fun k => (addr + 4096) + 4096 * k)).foldlM
          (fun st1 a => map_page pml4 st1 a a fl) st'
      rw [show FRAME_SIZE = 4096 from rfl]
      exact ih (addr + 4096) st' (by omega)

/-- C10: `identity_map_range` maps exactly the 4 KiB pages whose base
addresses lie in `[start & !0xFFF, align_up end)`: it equals the
sequenced `map_page` over precisely that arithmetic progression of page
bases (unaligned endpoints are silently widened), and when the rounded
start is not below the rounded end it returns the state unchanged — in
particular the allocator is never consulted. -/
theorem identity_map_range_page_set (pml4 s e fl : Nat) (st : MachSt) :
    identity_map_range pml4 st s e fl =
      ((List.range ((align_up e - pageFloor s) / 4096)).map
        (fun k => pageFloor s + 4096 * k)).foldlM
        (fun st1 a => map_page pml4 st1 a a fl) st ∧
    (align_up e ≤ pageFloor s →
      identity_map_range pml4 st s e fl = some st) := by
  have hfa : pageFloor s % 4096 = 0 := by
    unfold pageFloor
    exact Nat.mul_mod_left _ _
  have hea : align_up e % 4096 = 0 := by
    unfold align_up
    exact Nat.mul_mod_left _ _
  constructor
  · unfold identity_map_range
    apply mapLoop_eq_foldlM
    omega
  · intro hle
    unfold identity_map_range mapLoop
    rw [dif_neg (by omega)]

theorem identity_map_range_page_set_witness :
    (align_up 0x1000 ≤ pageFloor 0x5000) ∧
    identity_map_range 0 (⟨fun _ => zeroTbl, []⟩ : MachSt) 0x5000 0x1000 7 =
      some (⟨fun _ => zeroTbl, []⟩ : MachSt) :=
  ⟨by decide,
    (identity_map_range_page_set 0 0x5000 0x1000 7 ⟨fun _ => zeroTbl, []⟩).2
      (by decide)⟩

/-- C1 (amended): for every virtual/physical range and every flag word
(whether or not it has the PRESENT bit set), and every frame allocator
obeying the spec's invariants (packaged in `Hier4`: pairwise-distinct
page-aligned frames below 2^52, disjoint from the tables of the
existing hierarchy, which itself is a proper 4-level tree), running
`identity_map_range` twice with identical arguments equals running it
once: the second call returns the first call's state byte for byte —
intermediate entries are present after the first call so the second walk
allocates no frames, present leaves are never overwritten, and any leaf
the first call left non-present is rewritten by the second call with the
very same replayed write sequence, whose last write restores the same
bytes. -/
theorem identity_map_range_idempotent (pml4 s e fl : Nat) (st0 : MachSt)
    (U0 U1 U2 U3 : Nat → Prop)
    (hH : Hier4 pml4 U0 U1 U2 U3 st0) :
    Option.bind (identity_map_range pml4 st0 s e fl)
      (fun st1 => identity_map_range pml4 st1 s e fl) =
      identity_map_range pml4 st0 s e fl := by
  cases h1 : identity_map_range pml4 st0 s e fl with
  | none => rfl
  | some st1 =>
    show identity_map_range pml4 st1 s e fl = some st1
    unfold identity_map_range at h1 ⊢
    obtain ⟨V1, V2, V3, hH1, hPresTotal, hReady, hLF, hChg⟩ :=
      mapLoop_spec (align_up e - pageFloor s) (pageFloor s) st0 st1
        U0 U1 U2 U3 (Nat.le_refl _) hH h1
    exact mapLoop_replay hH1 (align_up e - pageFloor s) (pageFloor s) st1
      (Nat.le_refl _) (by unfold pageFloor; exact Nat.mul_mod_left _ _)
      hReady hLF rfl (fun t i => Or.inl rfl)

theorem identity_map_range_idempotent_witness :
    Option.bind (identity_map_range 0x5000
        (⟨fun _ => zeroTbl, [0x10000, 0x11000, 0x12000]⟩ : MachSt)
        0x1000 0x3000 2)
      (fun st1 => identity_map_range 0x5000 st1 0x1000 0x3000 2) =
      identity_map_range 0x5000
        (⟨fun _ => zeroTbl, [0x10000, 0x11000, 0x12000]⟩ : MachSt)
        0x1000 0x3000 2 := by
  apply identity_map_range_idempotent 0x5000 0x1000 0x3000 2 _
    (fun x => x = 0x5000) (fun _ => False) (fun _ => False) (fun _ => False)
  refine ⟨rfl, ?_, ?_, ?_, ?_, ?_, ?_, ?_, ?_, ?_, ?_, ?_, ?_⟩
  · intro t i _ hpres
    have hz : PageTableEntry.is_unused
        ((⟨fun _ => zeroTbl, [0x10000, 0x11000, 0x12000]⟩ : MachSt).mem t i) =
        true := is_unused_zero
    rw [hz] at hpres
    exact absurd hpres (by simp)
  · intro t i ht _
    exact ht.elim
  · intro t i ht _
    exact ht.elim
  · exact fun x _ h => h.elim
  · exact fun x _ h => h.elim
  · exact fun x _ h => h.elim
  · exact fun x h => h.elim
  · exact fun x h => h.elim
  · exact fun x h => h.elim
  · intro f hf htr
    rcases htr with hx | hx | hx | hx
    · subst hx
      exact absurd hf (by decide)
    · exact hx
    · exact hx
    · exact hx
  · decide
  · intro f hf
    fin_cases hf <;> exact ⟨by decide, by decide⟩

/-- The all-zero memory used by the C1 counterexample. -/
def cexMem0 : Mem := fun _ => zeroTbl

/-- A frame allocator stream that returns the frame `0x10000` twice —
an implementor of the `FrameAllocator` trait is free to do this. -/
def cexSt0 : MachSt := ⟨cexMem0, [0x10000, 0x11000, 0x10000]⟩

/-- The intermediate memories of the first `identity_map_range` call on
`cexSt0` (one page at 0x1000): level-0 zeroes 0x10000 and links it into
the root, level-1 zeroes 0x11000 and links it into 0x10000, level-2
zeroes 0x10000 AGAIN (the duplicate frame, wiping the level-1 link) and
links it into 0x11000, and the leaf entry lands in 0x10000. -/
def cexW0 : Mem := memSet cexMem0 0x10000 zeroTbl

def cexM1 : Mem := memSet cexW0 0x5000
  (tblSet (cexW0 0x5000) (pml4_index 4096)
    (entrySetRaw 0x10000 (flags.PRESENT ||| flags.WRITABLE)))

def cexW1 : Mem := memSet cexM1 0x11000 zeroTbl

def cexM2 : Mem := memSet cexW1 0x10000
  (tblSet (cexW1 0x10000) (pdpt_index 4096)
    (entrySetRaw 0x11000 (flags.PRESENT ||| flags.WRITABLE)))

def cexW2 : Mem := memSet cexM2 0x10000 zeroTbl

def cexM3 : Mem := memSet cexW2 0x11000
  (tblSet (cexW2 0x11000) (pd_index 4096)
    (entrySetRaw 0x10000 (flags.PRESENT ||| flags.WRITABLE)))

/-- The state after the first call of the C1 counterexample. -/
def cexStF : MachSt :=
  ⟨memSet cexM3 0x10000
    (tblSet (cexM3 0x10000) (pt_index 4096) (entrySetRaw 4096 3)), []⟩

/-- C1 (counterexample to the claim as stated): with an arbitrary
`FrameAllocator` — here one whose stream repeats the frame `0x10000` —
the first `identity_map_range(0x1000, 0x2000)` call succeeds, but the
second identical call does not leave the state unchanged: re-zeroing the
duplicated frame wiped an intermediate entry, so the second walk tries
to allocate a fresh table and dies on allocator exhaustion (the
`expect` panic, modelled as `none`).  The claim quantifies over every
frame allocator, so it fails as stated; distinct fresh frames (the
spec's own allocator invariant) must be assumed. -/
theorem identity_map_range_not_idempotent :
    (identity_map_range 0x5000 cexSt0 0x1000 0x2000 3).isSome = true ∧
    Option.bind (identity_map_range 0x5000 cexSt0 0x1000 0x2000 3)
      (fun st1 => identity_map_range 0x5000 st1 0x1000 0x2000 3) = none := by
  have hm1 : map_page 0x5000 cexSt0 4096 4096 3 = some cexStF := rfl
  have hm2 : map_page 0x5000 cexStF 4096 4096 3 = none := rfl
  have hfirst : identity_map_range 0x5000 cexSt0 0x1000 0x2000 3 =
      some cexStF := by
    show mapLoop 0x5000 3 (align_up 0x2000) (pageFloor 0x1000) cexSt0 =
      some cexStF
    rw [show align_up 0x2000 = 8192 from rfl,
      show pageFloor 0x1000 = 4096 from rfl]
    unfold mapLoop
    rw [dif_pos (by norm_num : (4096 : Nat) < 8192), hm1]
    show mapLoop 0x5000 3 8192 (4096 + FRAME_SIZE) cexStF = some cexStF
    rw [show (4096 + FRAME_SIZE : Nat) = 8192 from rfl]
    unfold mapLoop
    rw [dif_neg (by norm_num : ¬ (8192 : Nat) < 8192)]
  have hsecond : identity_map_range 0x5000 cexStF 0x1000 0x2000 3 = none := by
    show mapLoop 0x5000 3 (align_up 0x2000) (pageFloor 0x1000) cexStF = none
    rw [show align_up 0x2000 = 8192 from rfl,
      show pageFloor 0x1000 = 4096 from rfl]
    unfold mapLoop
    rw [dif_pos (by norm_num : (4096 : Nat) < 8192), hm2]
  constructor
  · rw [hfirst]
    rfl
  · rw [hfirst]
    show identity_map_range 0x5000 cexStF 0x1000 0x2000 3 = none
    exact hsecond

end Paging

namespace Interrupts

/-- `IdtEntry` (the 16-byte interrupt gate) from src/interrupts.rs; u16
and u32 fields are Nats kept below 2^16 / 2^32 by construction. -/
structure IdtEntry where
  offset_low : Nat
  selector : Nat
  options : Nat
  offset_mid : Nat
  offset_high : Nat
  reserved : Nat
deriving Repr, DecidableEq

/-- `IdtEntry::missing()`. -/
def IdtEntry.missing : IdtEntry := ⟨0, 0, 0, 0, 0, 0⟩

/-- `IdtEntry::set_handler`: the `as u16` / `as u32` casts of the
handler address and its right shifts become explicit mod-2^k
truncations. -/
def IdtEntry.set_handler (e : IdtEntry) (handler : Nat) : IdtEntry :=
  { e with
    offset_low := handler % 2 ^ 16,
    offset_mid := handler / 2 ^ 16 % 2 ^ 16,
    offset_high := handler / 2 ^ 32 % 2 ^ 32 }

/-- `IdtEntry::new`.  The source reads the live code-segment selector
with `CS::get_reg()`; that ambient register value is the explicit
argument `cs` here (a u16 value). -/
def IdtEntry.new (handler cs : Nat) : IdtEntry :=
  { IdtEntry.missing.set_handler handler with
    selector := cs,
    options := 0x8E00 }

/-- `IdtEntry::new_with_ist`:
`let ist = (ist as u16) & 0x0007; options = (options & !0x0007) | ist`.
The low three bits of a u8 survive the cast, so the cast is dropped;
`!0x0007` on u16 is `0xFFF8`.  Note the source masks the IST index
silently — there is no assertion. -/
def IdtEntry.new_with_ist (handler cs ist : Nat) : IdtEntry :=
  let e := IdtEntry.new handler cs
  { e with options := (e.options &&& 0xFFF8) ||| (ist &&& 0x0007) }

/-- Modelled from the spec: the CPU-side decoding of the gate layout —
the handler address is the concatenation of the three offset fields
(spec §3, Gate Descriptor; no decoder exists in the source). -/
def IdtEntry.handlerOf (e : IdtEntry) : Nat :=
  e.offset_low + 2 ^ 16 * e.offset_mid + 2 ^ 32 * e.offset_high

/-- Modelled from the spec: the IST index lives in the low 3 bits of the
options field (spec §3). -/
def IdtEntry.istOf (e : IdtEntry) : Nat := e.options &&& 0x0007

/-- The stored segment selector. -/
def IdtEntry.selectorOf (e : IdtEntry) : Nat := e.selector

/-- C2: for every 64-bit handler address, u16 segment selector and IST
index 0–7, encoding a gate with `new_with_ist` and decoding it back
recovers the handler, the selector and the IST index exactly. -/
theorem idt_gate_roundtrip (handler cs ist : Nat) (hh : handler < 2 ^ 64)
    (hcs : cs < 2 ^ 16) (hist : ist ≤ 7) :
    (IdtEntry.new_with_ist handler cs ist).handlerOf = handler ∧
    (IdtEntry.new_with_ist handler cs ist).selectorOf = cs ∧
    (IdtEntry.new_with_ist handler cs ist).istOf = ist := by
  refine ⟨?_, rfl, ?_⟩
  · show handler % 2 ^ 16 + 2 ^ 16 * (handler / 2 ^ 16 % 2 ^ 16) +
      2 ^ 32 * (handler / 2 ^ 32 % 2 ^ 32) = handler
    omega
  · show ((0x8E00 &&& 0xFFF8) ||| (ist &&& 0x0007)) &&& 0x0007 = ist
    interval_cases ist <;> decide

theorem idt_gate_roundtrip_witness :
    (0xFFFFFFFF801234AB < 2 ^ 64) ∧ (8 < 2 ^ 16) ∧ (1 ≤ 7) ∧
    (IdtEntry.new_with_ist 0xFFFFFFFF801234AB 8 1).handlerOf =
      0xFFFFFFFF801234AB ∧
    (IdtEntry.new_with_ist 0xFFFFFFFF801234AB 8 1).selectorOf = 8 ∧
    (IdtEntry.new_with_ist 0xFFFFFFFF801234AB 8 1).istOf = 1 :=
  ⟨by norm_num, by norm_num, by norm_num,
    (idt_gate_roundtrip 0xFFFFFFFF801234AB 8 1 (by norm_num) (by norm_num)
      (by norm_num)).1,
    (idt_gate_roundtrip 0xFFFFFFFF801234AB 8 1 (by norm_num) (by norm_num)
      (by norm_num)).2.1,
    (idt_gate_roundtrip 0xFFFFFFFF801234AB 8 1 (by norm_num) (by norm_num)
      (by norm_num)).2.2⟩

/-- C8 (counterexample to the claim as stated): constructing a gate with
IST index 9 (> 7) is not rejected by any assertion — it produces a
complete, present encoding, identical to the one for IST index 1
(`9 & 7 = 1`). -/
theorem ist_gt7_not_rejected :
    IdtEntry.new_with_ist 0x1234 8 9 = IdtEntry.new_with_ist 0x1234 8 1 ∧
    (IdtEntry.new_with_ist 0x1234 8 9).options = 0x8E01 := by
  constructor <;> decide

/-- C8 (amended): the gate encoder has no assertion — an IST index above
7 is silently reduced modulo 8; the page-table-entry setter is the one
with a programming-contract (debug) assertion: a frame address that is
not 4096-aligned fails the assertion and produces no encoding, an
aligned one encodes normally. -/
theorem codec_assertions (handler cs ist frame fl : Nat) :
    IdtEntry.new_with_ist handler cs ist =
      IdtEntry.new_with_ist handler cs (ist % 8) ∧
    (frame % 4096 ≠ 0 → Paging.PageTableEntry.set frame fl = none) ∧
    (frame % 4096 = 0 →
      Paging.PageTableEntry.set frame fl =
        some (Paging.entrySetRaw frame fl)) := by
  refine ⟨?_, ?_, ?_⟩
  · have hmask : ist % 8 &&& 0x0007 = ist &&& 0x0007 := by
      have h8 : ist % 8 = ist &&& 7 := by
        have := Nat.and_pow_two_sub_one_eq_mod ist 3
        norm_num at this
        omega
      rw [h8, Nat.and_assoc, show (7 &&& 7 : Nat) = 7 by decide]
    show IdtEntry.mk _ _ _ _ _ _ = IdtEntry.mk _ _ _ _ _ _
    rw [hmask]
  · intro hne
    unfold Paging.PageTableEntry.set
    rw [Paging.land_fff_eq_mod, if_neg hne]
  · intro heq
    unfold Paging.PageTableEntry.set
    rw [Paging.land_fff_eq_mod, if_pos heq]

theorem codec_assertions_witness :
    (5 % 4096 ≠ 0) ∧ (4096 % 4096 = 0) ∧
    Paging.PageTableEntry.set 5 3 = none ∧
    Paging.PageTableEntry.set 4096 3 = some (Paging.entrySetRaw 4096 3) :=
  ⟨by norm_num, by norm_num,
    (codec_assertions 0 0 0 5 3).2.1 (by norm_num),
    (codec_assertions 0 0 0 4096 3).2.2 (by norm_num)⟩

end Interrupts

namespace Pic

/-- Modelled from the spec: one 8259 controller as far as the §4.4
initialization protocol goes.  A command-port write with bit 4 set is
ICW1 and opens an initialization sequence; the data port then consumes
ICW2 (the vector base), ICW3 if cascaded (ICW1 bit 1 clear) and ICW4 if
announced (ICW1 bit 0 set), in that order; any other data-port write is
OCW1 and replaces the interrupt mask register. -/
structure Pic8259 where
  icwLeft : Nat
  base : Nat
  mask : Nat
deriving Repr, DecidableEq

/-- A write to the controller's command port. -/
def Pic8259.writeCmd (p : Pic8259) (v : Nat) : Pic8259 :=
  if v &&& 0x10 ≠ 0 then
    { p with icwLeft :=
        1 + (if v &&& 2 = 0 then 1 else 0) + (if v &&& 1 ≠ 0 then 1 else 0) }
  else p

/-- A write to the controller's data port: a pending ICW (the vector
base is ICW2, the first of the three pending words in the sequence the
kernel uses), otherwise OCW1, setting the mask register. -/
def Pic8259.writeData (p : Pic8259) (v : Nat) : Pic8259 :=
  match p.icwLeft with
  | 0 => { p with mask := v }
  | n + 1 => { p with icwLeft := n, base := if n + 1 = 3 then v else p.base }

/-- The master (ports 0x20/0x21) and slave (0xA0/0xA1) controllers. -/
structure PicPair where
  master : Pic8259
  slave : Pic8259
deriving Repr, DecidableEq

/-- Dispatch one `outb` to the controller the port belongs to; any
other port (0x80, the io_wait delay port) is a no-op. -/
def writePort (s : PicPair) (port v : Nat) : PicPair :=
  if port = 0x20 then { s with master := s.master.writeCmd v }
  else if port = 0x21 then { s with master := s.master.writeData v }
  else if port = 0xA0 then { s with slave := s.slave.writeCmd v }
  else if port = 0xA1 then { s with slave := s.slave.writeData v }
  else s

/-- The exact sequence of `outb(port, value)` writes performed by
`remap_pic` in src/interrupts.rs, with each `io_wait()` shown as its
write to port 0x80. -/
def remap_pic_trace : List (Nat × Nat) :=
  [(0x20, 0x11), (0x80, 0), (0xA0, 0x11), (0x80, 0),
   (0x21, 0x20), (0x80, 0), (0xA1, 0x28), (0x80, 0),
   (0x21, 4), (0x80, 0), (0xA1, 2), (0x80, 0),
   (0x21, 0x01), (0x80, 0), (0xA1, 0x01), (0x80, 0),
   (0x21, 0x00), (0xA1, 0x00)]

/-- The controller state after `remap_pic()` runs from state `s`. -/
def remap_pic (s : PicPair) : PicPair :=
  remap_pic_trace.foldl (fun s pv => writePort s pv.1 pv.2) s

/-- Whether hardware IRQ line `line` (0–15) is masked: bit `line` of
the master mask for lines 0–7, bit `line - 8` of the slave mask for
lines 8–15. -/
def irqMasked (s : PicPair) (line : Nat) : Bool :=
  if line < 8 then s.master.mask.testBit line
  else s.slave.mask.testBit (line - 8)

/-- C5 (amended): whatever state the controllers started in, `remap_pic`
leaves both mask registers equal to 0 — the final data-port writes are
OCW1 with value 0x00 — so every IRQ line 0–15 ends up unmasked, not
just the timer and keyboard lines. -/
theorem remap_pic_unmasks_all (s : PicPair) :
    (remap_pic s).master.mask = 0 ∧ (remap_pic s).slave.mask = 0 ∧
    ∀ line, line < 16 → irqMasked (remap_pic s) line = false := by
  refine ⟨rfl, rfl, ?_⟩
  intro line hline
  unfold irqMasked
  by_cases hl : line < 8
  · rw [if_pos hl, show (remap_pic s).master.mask = 0 from rfl]
    simp
  · rw [if_neg hl, show (remap_pic s).slave.mask = 0 from rfl]
    simp

theorem remap_pic_unmasks_all_witness :
    (5 < 16) ∧
    irqMasked (remap_pic ⟨⟨0, 0, 0x55⟩, ⟨0, 0, 0x55⟩⟩) 5 = false :=
  ⟨by norm_num,
    (remap_pic_unmasks_all ⟨⟨0, 0, 0x55⟩, ⟨0, 0, 0x55⟩⟩).2.2 5 (by norm_num)⟩

/-- C5 (counterexample to the claim as stated): after `remap_pic` the
mask registers are 0x00, so IRQ line 2 — which the claim requires to be
masked — is unmasked (shown from a concrete initial state with all
lines masked). -/
theorem remap_pic_mask_claim_false :
    irqMasked (remap_pic ⟨⟨0, 0, 0xFF⟩, ⟨0, 0, 0xFF⟩⟩) 2 = false := by
  decide

/-- The `outb` writes `send_eoi(irq)` performs, in source order: the
slave command port first when `irq >= 0x28`, then the master command
port always. -/
def send_eoi_trace (irq : Nat) : List (Nat × Nat) :=
  (if 0x28 ≤ irq then [(0xA0, 0x20)] else []) ++ [(0x20, 0x20)]

/-- C6 (amended): `send_eoi(irq)` writes the end-of-interrupt command
0x20 to the master command port on every call, and to the slave command
port if and only if its argument is at least 0x28 — the remapped vector
number of the first slave line, not the IRQ number 8 the claim names. -/
theorem send_eoi_spec (irq : Nat) :
    (0x20, 0x20) ∈ send_eoi_trace irq ∧
    ((0xA0, 0x20) ∈ send_eoi_trace irq ↔ 0x28 ≤ irq) := by
  unfold send_eoi_trace
  by_cases h : 0x28 ≤ irq
  · rw [if_pos h]
    simp [h]
  · rw [if_neg h]
    simp [h]

/-- C6 (counterexample to the claim as stated): the claim requires a
slave end-of-interrupt for every IRQ number ≥ 8, but `send_eoi(8)`
writes only to the master: the code's threshold is 0x28. -/
theorem send_eoi_claim_false_at_8 :
    ¬ ((0xA0, 0x20) ∈ send_eoi_trace 8) := by
  decide

end Pic

namespace Gdt

/-- `DOUBLE_FAULT_IST_INDEX` from src/gdt.rs (storage index). -/
def DOUBLE_FAULT_IST_INDEX : Nat := 0

/-- `DOUBLE_FAULT_IST_INDEX_FOR_IDT = DOUBLE_FAULT_IST_INDEX + 1`
(the value encoded into the IDT gate). -/
def DOUBLE_FAULT_IST_INDEX_FOR_IDT : Nat := DOUBLE_FAULT_IST_INDEX + 1

/-- `DF_STACK_SIZE = 4096 * 5`. -/
def DF_STACK_SIZE : Nat := 4096 * 5

/-- Modelled from the spec: the external `x86_64` crate's
`TaskStateSegment`, reduced to what src/gdt.rs touches — the 7-slot
interrupt stack table, zero-initialized by `TaskStateSegment::new()`
(spec §3: an array of 7 stack-top addresses, unused slots
unpopulated). -/
structure TaskStateSegment where
  interrupt_stack_table : Fin 7 → Nat

/-- `TaskStateSegment::new()`. -/
def TaskStateSegment.new : TaskStateSegment := ⟨fun _ => 0⟩

/-- The effect of `gdt::init()` on the TSS: store
`DF_STACK`'s base + `DF_STACK_SIZE` (the top of the static buffer;
the base address is link-time chosen, hence a parameter) into IST slot
`DOUBLE_FAULT_IST_INDEX`.  The GDT construction and register loads
that follow do not touch the TSS. -/
def init (dfStackBase : Nat) : TaskStateSegment :=
  ⟨fun i => if i.val = DOUBLE_FAULT_IST_INDEX
    then dfStackBase + DF_STACK_SIZE
    else TaskStateSegment.new.interrupt_stack_table i⟩

/-- C7 (amended): after `gdt::init()` exactly one IST slot is
populated — storage index 0, encoded as IST index 1 in the gate — and
it holds the top (base + 20480) of the `DF_STACK` region; since the
region size is a multiple of 16, that top is 16-byte aligned exactly
when the link-time base is, and the code puts no alignment constraint
on the base. -/
theorem gdt_init_ist_spec (base : Nat) :
    (init base).interrupt_stack_table ⟨DOUBLE_FAULT_IST_INDEX, by decide⟩ =
      base + DF_STACK_SIZE ∧
    (∀ i : Fin 7, i.val ≠ DOUBLE_FAULT_IST_INDEX →
      (init base).interrupt_stack_table i = 0) ∧
    ((base + DF_STACK_SIZE) % 16 = 0 ↔ base % 16 = 0) ∧
    DOUBLE_FAULT_IST_INDEX_FOR_IDT = 1 := by
  refine ⟨rfl, ?_, ?_, rfl⟩
  · intro i hi
    show (if i.val = DOUBLE_FAULT_IST_INDEX then base + DF_STACK_SIZE
      else TaskStateSegment.new.interrupt_stack_table i) = 0
    rw [if_neg hi]
    rfl
  · unfold DF_STACK_SIZE
    omega

theorem gdt_init_ist_spec_witness :
    (init 32).interrupt_stack_table ⟨0, by norm_num⟩ = 32 + DF_STACK_SIZE ∧
    ((3 : Fin 7).val ≠ DOUBLE_FAULT_IST_INDEX) ∧
    (init 32).interrupt_stack_table 3 = 0 :=
  ⟨(gdt_init_ist_spec 32).1, by decide,
    (gdt_init_ist_spec 32).2.1 3 (by decide)⟩

/-- C7 (counterexample to the claim as stated): `DF_STACK` is a plain
`[u8; N]` static with alignment 1, so the linker may place it at base
8; the stored stack top 8 + 20480 = 20488 is then not 16-byte aligned,
refuting the claimed alignment invariant. -/
theorem tss_ist_alignment_claim_false :
    ¬ ((init 8).interrupt_stack_table ⟨0, by norm_num⟩ % 16 = 0) := by
  decide

end Gdt
